import Mathlib

/-!
DeepGEMM (W2A2) lookup kernel: `src/deepgemm.cpp`

A shallow embedding of `generateLUT` and `deepgemmAVX2` and of the AVX2
intrinsics they call, followed by theorems about them.

Conventions of the embedding:

* a `uint8_t` is a `Nat` below 256; an `int8_t` or `int32_t` is an `Int`, and every
  conversion into the narrow type is written out (`toInt8`, `toInt32`);
* a `__m256i` is its 32 byte lanes, `Fin 32 → Nat`, lane 0 the lowest byte;
* a buffer behind a pointer is the list of the bytes readable from that pointer on;
* `std::cout` is the list of the operands of `<<`, in order;
* a result of `none` stands for an execution without a result: a vector load that
  leaves the readable bytes, or a loop that used up its fuel.
-/

namespace DeepGemm

/-! ## Constants -/

/-- LUT size for 2-bit quantization (`constexpr int LUT_SIZE = 16`). -/
def LUT_SIZE : Nat := 16

/-- Bytes of a 256-bit vector (`constexpr int VECTOR_SIZE = 256 / 8`). -/
def VECTOR_SIZE : Nat := 256 / 8

/-- The four weight levels (`const int8_t predefined_weights[4]`). -/
def predefined_weights : List Int := [-1, 0, 1, 2]

/-- The four activation levels (`const int8_t predefined_activations[4]`). -/
def predefined_activations : List Int := [0, 1, 2, 3]

/-! ## Machine integers -/

/-- Conversion of an `int` to `int8_t`: the value modulo 2^8, in [-128, 127]. -/
def toInt8 (x : Int) : Int := (x + 128) % 256 - 128

/-- Conversion to `int32_t`: the value modulo 2^32, in [-2^31, 2^31 - 1]. -/
def toInt32 (x : Int) : Int := (x + 2147483648) % 4294967296 - 2147483648

/-- The byte that holds an `int8_t` (two's complement). -/
def byteOfInt8 (x : Int) : Nat := (x % 256).toNat

/-- The `int8_t` that a byte holds (two's complement). -/
def int8OfByte (b : Nat) : Int := if b < 128 then (b : Int) else (b : Int) - 256

/-! ## Table builder -/

/-- Embedding of `generateLUT`: the two nested loops over `i` and `j` store
`weights[i] * activations[j]`, converted to `int8_t`, at `lut[i * 4 + j]`.
The array `lut` is passed in and the updated array is returned. -/
def generateLUT (lut weights activations : List Int) : List Int :=
  (List.range 4).foldl (fun lut i =>
    (List.range 4).foldl (fun lut j =>
      lut.set (i * 4 + j) (toInt8 (weights.getD i 0 * activations.getD j 0))) lut) lut

/-! ## AVX2 intrinsics (semantics of the Intel intrinsics guide) -/

/-- A 256-bit vector register, as 32 byte lanes. -/
abbrev M256 := Fin 32 → Nat

/-- Intrinsic `_mm256_setzero_si256`. -/
def _mm256_setzero_si256 : M256 := fun _ => 0

/-- Intrinsic `_mm256_set1_epi8`: the low 8 bits of `a` in every byte lane. -/
def _mm256_set1_epi8 (a : Nat) : M256 := fun _ => a % 256

/-- Intrinsic `_mm256_load_si256`: the 32 bytes at offset `off` of the buffer `mem`;
no result when the 32 bytes are not all readable. -/
def _mm256_load_si256 (mem : List Nat) (off : Nat) : Option M256 :=
  if off + 32 ≤ mem.length then some (fun j => mem.getD (off + j.val) 0) else none

/-- Intrinsic `_mm256_store_si256`: the 32 bytes written to the destination array. -/
def _mm256_store_si256 (a : M256) : List Nat := List.ofFn a

/-- The 16-bit lane `k` of a vector (little endian: byte `2k` is the low byte). -/
def epi16 (a : M256) (k : Fin 16) : Nat :=
  a ⟨2 * k.val, by omega⟩ + 256 * a ⟨2 * k.val + 1, by omega⟩

/-- The vector whose 16-bit lanes are the low 16 bits of `x 0`, ..., `x 15`. -/
def ofEpi16 (x : Fin 16 → Nat) : M256 := fun j =>
  if j.val % 2 = 0 then x ⟨j.val / 2, by omega⟩ % 65536 % 256
  else x ⟨j.val / 2, by omega⟩ % 65536 / 256

/-- Intrinsic `_mm256_srli_epi16`: logical right shift of every 16-bit lane by `imm8`,
shifting in zeros; all zero when `imm8 > 15`. -/
def _mm256_srli_epi16 (a : M256) (imm8 : Nat) : M256 :=
  ofEpi16 fun k => if imm8 > 15 then 0 else epi16 a k >>> imm8

/-- Intrinsic `_mm256_slli_epi16`: left shift of every 16-bit lane by `imm8`,
shifting in zeros and dropping the bits above bit 15; all zero when `imm8 > 15`. -/
def _mm256_slli_epi16 (a : M256) (imm8 : Nat) : M256 :=
  ofEpi16 fun k => if imm8 > 15 then 0 else epi16 a k <<< imm8

/-- Intrinsic `_mm256_and_si256`: bitwise AND. -/
def _mm256_and_si256 (a b : M256) : M256 := fun j => a j &&& b j

/-- Intrinsic `_mm256_or_si256`: bitwise OR. -/
def _mm256_or_si256 (a b : M256) : M256 := fun j => a j ||| b j

/-- Intrinsic `_mm256_add_epi8`: addition in every byte lane, modulo 2^8. -/
def _mm256_add_epi8 (a b : M256) : M256 := fun j => (a j + b j) % 256

/-- Intrinsic `_mm256_shuffle_epi8`: in byte lane `j`, zero when bit 7 of `b j` is set,
otherwise the byte of `a` at position `b j mod 16` of the 128-bit half that holds
lane `j`. -/
def _mm256_shuffle_epi8 (a b : M256) : M256 := fun j =>
  if b j / 128 % 2 = 1 then 0
  else a ⟨16 * (j.val / 16) + b j % 16, by omega⟩

/-- The operation `SELECT4` of `_mm256_permute2x128_si256`: byte `j` of the 128-bit
half of `src1`, `src2` that the 4-bit `control` selects; zero when bit 3 is set. -/
def select4 (src1 src2 : M256) (control : Nat) (j : Fin 16) : Nat :=
  if control / 8 % 2 = 1 then 0
  else if control % 4 = 0 then src1 ⟨j.val, by omega⟩
  else if control % 4 = 1 then src1 ⟨16 + j.val, by omega⟩
  else if control % 4 = 2 then src2 ⟨j.val, by omega⟩
  else src2 ⟨16 + j.val, by omega⟩

/-- Intrinsic `_mm256_permute2x128_si256`: the low half of the result is selected by
bits 3:0 of `imm8`, the high half by bits 7:4. -/
def _mm256_permute2x128_si256 (a b : M256) (imm8 : Nat) : M256 := fun j =>
  if h : j.val < 16 then select4 a b (imm8 % 16) ⟨j.val, h⟩
  else select4 a b (imm8 / 16 % 16) ⟨j.val - 16, by omega⟩

/-! ## The kernel -/

/-- One operand of `<<` on `std::cout`. -/
inductive Out where
  | str (s : String)
  | int (v : Int)
  | endl
deriving DecidableEq

/-- What a call leaves behind: the operands written to `std::cout`, the contents of
the two input buffers after the call, and the returned `int32_t`. -/
structure Outcome where
  cout : List Out
  activations : List Nat
  weights : List Nat
  value : Int
deriving DecidableEq

/-- The values of `shift` in `for (int shift = 0; shift < 8; shift += 2)`. -/
def shifts : List Nat := [0, 2, 4, 6]

/-- The vector `act_index` of the inner loop: the 2-bit activation indices at `shift`. -/
def act_index (act_vec : M256) (shift : Nat) : M256 :=
  _mm256_and_si256 (_mm256_srli_epi16 act_vec shift) (_mm256_set1_epi8 0x03)

/-- The vector `wt_index` of the inner loop: the 2-bit weight indices at `shift`. -/
def wt_index (wt_vec : M256) (shift : Nat) : M256 :=
  _mm256_and_si256 (_mm256_srli_epi16 wt_vec shift) (_mm256_set1_epi8 0x03)

/-- The vector `combined_index` of the inner loop. -/
def combined_index (act_vec wt_vec : M256) (shift : Nat) : M256 :=
  _mm256_or_si256 (act_index act_vec shift) (_mm256_slli_epi16 (wt_index wt_vec shift) 2)

/-- The vector `lut_values` of the inner loop: the table lookup. -/
def lut_values (lut_vec act_vec wt_vec : M256) (shift : Nat) : M256 :=
  _mm256_shuffle_epi8 lut_vec (combined_index act_vec wt_vec shift)

/-- The inner loop over `shift`: `result = _mm256_add_epi8(result, lut_values)` for
`shift` = 0, 2, 4, 6. (The four local arrays the loop body stores into are never read.) -/
def shiftLoop (lut_vec act_vec wt_vec result : M256) : M256 :=
  shifts.foldl (fun result shift =>
    _mm256_add_epi8 result (lut_values lut_vec act_vec wt_vec shift)) result

/-- The outer loop `for (size_t i = 0; i < length; i += VECTOR_SIZE)`, started at `i`
with accumulator `result`. The index is a `size_t`, so `i += VECTOR_SIZE` is modulo
2^64. `fuel` bounds the number of evaluations of the loop condition. -/
def blockLoop (lut_vec : M256) (activations weights : List Nat) (length : Nat) :
    Nat → Nat → M256 → Option M256
  | 0, _, _ => none
  | fuel + 1, i, result =>
    if i < length then
      match _mm256_load_si256 activations i, _mm256_load_si256 weights i with
      | some act_vec, some wt_vec =>
        blockLoop lut_vec activations weights length fuel
          ((i + VECTOR_SIZE) % 18446744073709551616)
          (shiftLoop lut_vec act_vec wt_vec result)
      | _, _ => none
    else some result

/-- The diagnostic print of the table: `"LUT Table: "`, then for `i` below
`VECTOR_SIZE / 2` the entry `lut_vec_array[i]` as an `int` followed by `" "`, then
`std::endl`. -/
def printLUT (lut_vec_array : List Int) : List Out :=
  (List.range (VECTOR_SIZE / 2)).foldl
    (fun cout i => cout ++ [Out.int (lut_vec_array.getD i 0), Out.str " "])
    [Out.str "LUT Table: "] ++ [Out.endl]

/-- The horizontal sum `for (i < VECTOR_SIZE) final_result += result_array[i]`, in
`int32_t`. -/
def horizontalSum (result_array : List Int) : Int :=
  (List.range VECTOR_SIZE).foldl
    (fun final_result i => toInt32 (final_result + result_array.getD i 0)) 0

/-- The table set-up at the head of `deepgemmAVX2`: `lut` is zero-initialised and
filled by `generateLUT`, loaded as a 32-byte vector, and its low 128 bits are copied to
the high 128 bits. `beyond` is the 16 bytes that follow the 16-byte array `lut` in
memory: the 32-byte load of `lut` reads them. -/
def lut_vec (beyond : Fin 16 → Nat) : Option M256 :=
  let lut := List.replicate LUT_SIZE (0 : Int)
  let lut := generateLUT lut predefined_weights predefined_activations
  match _mm256_load_si256 (lut.map byteOfInt8 ++ List.ofFn beyond) 0 with
  | none => none
  | some lut_vec => some (_mm256_permute2x128_si256 lut_vec lut_vec 0x00)

/-- Embedding of `deepgemmAVX2`. `activations` and `weights` are the bytes readable
behind the two pointers and `length` is the `size_t` argument. `beyond` is the memory
that follows `lut` (see `lut_vec`); `fuel` bounds the block loop. -/
def deepgemmAVX2 (fuel : Nat) (beyond : Fin 16 → Nat) (activations weights : List Nat)
    (length : Nat) : Option Outcome :=
  match lut_vec beyond with
  | none => none
  | some lut_vec =>
    let lut_vec_array := (_mm256_store_si256 lut_vec).map int8OfByte
    let cout := printLUT lut_vec_array
    match blockLoop lut_vec activations weights length fuel 0 _mm256_setzero_si256 with
    | none => none
    | some result =>
      let result_array := (_mm256_store_si256 result).map int8OfByte
      let final_result := horizontalSum result_array
      some { cout := cout, activations := activations, weights := weights,
             value := final_result }

/-! ## Reference definitions used by the statements -/

/-- The 16 products of the built-in levels, in the order `lut[4 * w + a]`. -/
def builtinTable : List Int := [0, -1, -2, -3, 0, 0, 0, 0, 0, 1, 2, 3, 0, 2, 4, 6]

/-- The table register after the broadcast: both 128-bit halves hold the bytes of
`builtinTable`. -/
def builtinLutVec : M256 := fun j => byteOfInt8 (builtinTable.getD (j.val % 16) 0)

/-- The product that the packed bytes `activation` and `weight` select at sub-lane `s`:
`predefined_weights[(weight >> 2s) & 3] * predefined_activations[(activation >> 2s) & 3]`. -/
def product (activation weight s : Nat) : Int :=
  predefined_weights.getD ((weight >>> (2 * s)) &&& 3) 0 *
    predefined_activations.getD ((activation >>> (2 * s)) &&& 3) 0

/-- The sum of the four products of one pair of packed bytes. -/
def byteProducts (activation weight : Nat) : Int :=
  ((List.range 4).map fun s => product activation weight s).sum

/-- The naive scalar reference: the sum over all bytes `i < N` and all sub-lanes `s` in
0..3 of `predefined_weights[(weights[i] >> 2s) & 3] *
predefined_activations[(activations[i] >> 2s) & 3]`. -/
def scalarReference (activations weights : List Nat) (N : Nat) : Int :=
  ((List.range N).map fun i => ((List.range 4).map fun s =>
    predefined_weights.getD ((weights.getD i 0 >>> (2 * s)) &&& 3) 0 *
      predefined_activations.getD ((activations.getD i 0 >>> (2 * s)) &&& 3) 0).sum).sum

/-- The exact (unwrapped) sum of byte lane `j`: over all blocks `b < N / 32` and all
four sub-lanes, the product selected by byte `32 b + j`. -/
def laneSum (activations weights : List Nat) (N j : Nat) : Int :=
  ((List.range (N / 32)).map fun b => ((List.range 4).map fun s =>
    product (activations.getD (32 * b + j) 0) (weights.getD (32 * b + j) 0) s).sum).sum

/-- The running partial sum of byte lane `j` after `k` lookups; lookup number `t` is
sub-lane `t % 4` of block `t / 4`. -/
def runningSum (activations weights : List Nat) (j k : Nat) : Int :=
  ((List.range k).map fun t =>
    product (activations.getD (32 * (t / 4) + j) 0) (weights.getD (32 * (t / 4) + j) 0)
      (t % 4)).sum

/-- The line that the kernel prints for the built-in table. -/
def lutLine : List Out :=
  [Out.str "LUT Table: ",
   Out.int 0, Out.str " ", Out.int (-1), Out.str " ", Out.int (-2), Out.str " ",
   Out.int (-3), Out.str " ", Out.int 0, Out.str " ", Out.int 0, Out.str " ",
   Out.int 0, Out.str " ", Out.int 0, Out.str " ", Out.int 0, Out.str " ",
   Out.int 1, Out.str " ", Out.int 2, Out.str " ", Out.int 3, Out.str " ",
   Out.int 0, Out.str " ", Out.int 2, Out.str " ", Out.int 4, Out.str " ",
   Out.int 6, Out.str " ", Out.endl]

/-- The value the kernel returns: the sum over the 32 byte lanes of the signed 8-bit
reading of the lane sum reduced modulo 256. -/
def wrappedResult (activations weights : List Nat) (N : Nat) : Int :=
  ((List.range 32).map fun j =>
    int8OfByte (laneSum activations weights N j % 256).toNat).sum

/-- A sample activation buffer of 64 bytes. -/
def sampleActivations : List Nat := (List.range 64).map fun i => (37 * i + 11) % 256

/-- A sample weight buffer of 64 bytes. -/
def sampleWeights : List Nat := (List.range 64).map fun i => (91 * i + 5) % 256

/-- A sample vector register. -/
def sampleVec : M256 := fun j => (37 * j.val + 200) % 256

/-- A sample vector of table keys, all in 0..15. -/
def sampleKey : M256 := fun j => (7 * j.val + 3) % 16

/-- A sample vector of 2-bit activation indices. -/
def sampleActivationIndex : M256 := fun j => (3 * j.val + 1) % 4

/-- A sample vector of 2-bit weight indices. -/
def sampleWeightIndex : M256 := fun j => (j.val / 2 + 3) % 4

/-- The block loop with a record of its iterations: the same loop as `blockLoop`, which
also returns the values of `i` at which the loop body ran, in order. -/
def blockLoopTrace (lut_vec : M256) (activations weights : List Nat) (length : Nat) :
    Nat → Nat → M256 → List Nat → Option (M256 × List Nat)
  | 0, _, _, _ => none
  | fuel + 1, i, result, trace =>
    if i < length then
      match _mm256_load_si256 activations i, _mm256_load_si256 weights i with
      | some act_vec, some wt_vec =>
        blockLoopTrace lut_vec activations weights length fuel
          ((i + VECTOR_SIZE) % 18446744073709551616)
          (shiftLoop lut_vec act_vec wt_vec result) (trace ++ [i])
      | _, _ => none
    else some (result, trace)

/-- The block that a permutation `p` of the `nb` blocks puts at position `b`. -/
def blockAt (nb : Nat) (p : Equiv.Perm (Fin nb)) (b : Nat) : Nat :=
  if h : b < nb then (p ⟨b, h⟩).val else b

/-- The buffer of `nb` blocks of 32 bytes whose block `b` is block `p b` of `l`. -/
def permuteBlocks (nb : Nat) (p : Equiv.Perm (Fin nb)) (l : List Nat) : List Nat :=
  (List.range (32 * nb)).map fun i => l.getD (32 * blockAt nb p (i / 32) + i % 32) 0

/-! ## Arithmetic of bytes -/

theorem and_three (x : Nat) : x &&& 3 = x % 4 := Nat.and_pow_two_sub_one_eq_mod x 2

theorem extract_lo (lo hi s : Nat) (hs : s = 0 ∨ s = 2 ∨ s = 4 ∨ s = 6) :
    ((lo + 256 * hi) >>> s) % 65536 % 256 &&& 3 = (lo >>> s) &&& 3 := by
  rcases hs with rfl | rfl | rfl | rfl <;>
    simp only [Nat.shiftRight_eq_div_pow, and_three] <;> omega

theorem extract_hi (lo hi s : Nat) (hlo : lo < 256) (hhi : hi < 256)
    (hs : s = 0 ∨ s = 2 ∨ s = 4 ∨ s = 6) :
    ((lo + 256 * hi) >>> s) % 65536 / 256 &&& 3 = (hi >>> s) &&& 3 := by
  rcases hs with rfl | rfl | rfl | rfl <;>
    simp only [Nat.shiftRight_eq_div_pow, and_three] <;> omega

theorem or_shifted : ∀ a < 4, ∀ w < 4, a ||| (4 * w) = 4 * w + a := by decide

theorem byteOfInt8_lt (x : Int) : byteOfInt8 x < 256 := by
  unfold byteOfInt8; omega

theorem byteOfInt8_add (x y : Int) :
    (byteOfInt8 x + byteOfInt8 y) % 256 = byteOfInt8 (x + y) := by
  unfold byteOfInt8; omega

theorem int8OfByte_byteOfInt8 (x : Int) : int8OfByte (byteOfInt8 x) = toInt8 x := by
  unfold int8OfByte byteOfInt8 toInt8; split <;> omega

theorem toInt8_of_range (x : Int) (h1 : -128 ≤ x) (h2 : x ≤ 127) : toInt8 x = x := by
  unfold toInt8; omega

theorem int8OfByte_range (b : Nat) (h : b < 256) :
    -128 ≤ int8OfByte b ∧ int8OfByte b ≤ 127 := by
  unfold int8OfByte; split <;> omega

/-! ## Lanes of the index vectors -/

theorem lane_even (j : Fin 32) (h : j.val % 2 = 0) (p : 2 * (j.val / 2) < 32) :
    (⟨2 * (j.val / 2), p⟩ : Fin 32) = j := Fin.ext (by simp only; omega)

theorem lane_odd (j : Fin 32) (h : ¬ j.val % 2 = 0) (p : 2 * (j.val / 2) + 1 < 32) :
    (⟨2 * (j.val / 2) + 1, p⟩ : Fin 32) = j := Fin.ext (by simp only; omega)

/-- Lane `j` of `(v >> shift) & 0x03`, computed on 16-bit lanes, is the 2-bit field of
byte `j` alone. -/
theorem index_lane (v : M256) (hv : ∀ j, v j < 256) (shift : Nat)
    (hs : shift = 0 ∨ shift = 2 ∨ shift = 4 ∨ shift = 6) (j : Fin 32) :
    _mm256_and_si256 (_mm256_srli_epi16 v shift) (_mm256_set1_epi8 0x03) j
      = (v j >>> shift) &&& 3 := by
  have h15 : ¬ shift > 15 := by omega
  simp only [_mm256_and_si256, _mm256_srli_epi16, _mm256_set1_epi8, ofEpi16, epi16, h15,
    if_false, Nat.reduceMod]
  by_cases hj : j.val % 2 = 0
  · rw [if_pos hj]
    have e := extract_lo (v ⟨2 * (j.val / 2), by omega⟩) (v ⟨2 * (j.val / 2) + 1, by omega⟩)
      shift hs
    rw [e, lane_even j hj]
  · rw [if_neg hj]
    have e := extract_hi (v ⟨2 * (j.val / 2), by omega⟩) (v ⟨2 * (j.val / 2) + 1, by omega⟩)
      shift (hv _) (hv _) hs
    rw [e, lane_odd j hj]

theorem index_lane_lt (v : M256) (hv : ∀ j, v j < 256) (shift : Nat)
    (hs : shift = 0 ∨ shift = 2 ∨ shift = 4 ∨ shift = 6) (j : Fin 32) :
    _mm256_and_si256 (_mm256_srli_epi16 v shift) (_mm256_set1_epi8 0x03) j < 4 := by
  rw [index_lane v hv shift hs j, and_three]; omega

/-- Lane `j` of the 16-bit left shift by 2 of a vector of 2-bit values. -/
theorem slli_lane (x : M256) (hx : ∀ j, x j < 4) (j : Fin 32) :
    _mm256_slli_epi16 x 2 j = 4 * x j := by
  simp only [_mm256_slli_epi16, ofEpi16, epi16, Nat.shiftLeft_eq]
  have h1 := hx ⟨2 * (j.val / 2), by omega⟩
  have h2 := hx ⟨2 * (j.val / 2) + 1, by omega⟩
  by_cases hj : j.val % 2 = 0
  · rw [if_pos hj]
    have e := lane_even j hj (by omega)
    rw [e] at h1
    rw [e]
    simp only [show ¬ (2 > 15) by omega, if_false]
    omega
  · rw [if_neg hj]
    have e := lane_odd j hj (by omega)
    rw [e] at h2
    rw [e]
    simp only [show ¬ (2 > 15) by omega, if_false]
    omega


/-! ## The table register -/

theorem lut_builtin :
    generateLUT (List.replicate LUT_SIZE 0) predefined_weights predefined_activations
      = builtinTable := by decide

theorem table_entry : ∀ w < 4, ∀ a < 4,
    builtinTable.getD (4 * w + a) 0
      = predefined_weights.getD w 0 * predefined_activations.getD a 0 := by decide

/-- The load of the table succeeds whatever follows it in memory, and after the
permute both halves of the register hold the table. -/
theorem lut_vec_eq (beyond : Fin 16 → Nat) : lut_vec beyond = some builtinLutVec := by
  have hload : _mm256_load_si256 (builtinTable.map byteOfInt8 ++ List.ofFn beyond) 0
      = some (fun j => (builtinTable.map byteOfInt8 ++ List.ofFn beyond).getD (0 + j.val) 0) := by
    unfold _mm256_load_si256
    rw [if_pos]
    simp [builtinTable]
  unfold lut_vec
  simp only [lut_builtin, hload]
  congr 1
  funext j
  fin_cases j <;> rfl

theorem printLUT_builtin :
    printLUT ((_mm256_store_si256 builtinLutVec).map int8OfByte) = lutLine := by decide

/-! ## One block -/

theorem lut_values_lane (act_vec wt_vec : M256) (ha : ∀ j, act_vec j < 256)
    (hw : ∀ j, wt_vec j < 256) (s : Nat) (hs : s < 4) (j : Fin 32) :
    lut_values builtinLutVec act_vec wt_vec (2 * s) j
      = byteOfInt8 (product (act_vec j) (wt_vec j) s) := by
  have hshift : 2 * s = 0 ∨ 2 * s = 2 ∨ 2 * s = 4 ∨ 2 * s = 6 := by omega
  have hwi : ∀ k, wt_index wt_vec (2 * s) k < 4 := fun k =>
    index_lane_lt wt_vec hw (2 * s) hshift k
  have hai : act_index act_vec (2 * s) j < 4 := index_lane_lt act_vec ha (2 * s) hshift j
  have hkey : combined_index act_vec wt_vec (2 * s) j
      = 4 * wt_index wt_vec (2 * s) j + act_index act_vec (2 * s) j := by
    simp only [combined_index, _mm256_or_si256]
    rw [slli_lane _ hwi j]
    exact or_shifted _ hai _ (hwi j)
  have hlt : combined_index act_vec wt_vec (2 * s) j < 16 := by
    have := hwi j
    omega
  have hj := j.isLt
  simp only [lut_values, _mm256_shuffle_epi8, builtinLutVec]
  rw [if_neg (by omega)]
  have hidx : (16 * (j.val / 16) + combined_index act_vec wt_vec (2 * s) j % 16) % 16
      = 4 * wt_index wt_vec (2 * s) j + act_index act_vec (2 * s) j := by
    rw [← hkey]; omega
  rw [hidx, table_entry _ (hwi j) _ hai]
  simp only [product, wt_index, act_index]
  rw [index_lane wt_vec hw (2 * s) hshift j, index_lane act_vec ha (2 * s) hshift j]

theorem shiftLoop_lane (act_vec wt_vec result : M256) (ha : ∀ j, act_vec j < 256)
    (hw : ∀ j, wt_vec j < 256) (S : Int) (j : Fin 32) (hr : result j = byteOfInt8 S) :
    shiftLoop builtinLutVec act_vec wt_vec result j
      = byteOfInt8 (S + byteProducts (act_vec j) (wt_vec j)) := by
  have h0 : lut_values builtinLutVec act_vec wt_vec 0 j = _ :=
    lut_values_lane act_vec wt_vec ha hw 0 (by omega) j
  have h1 : lut_values builtinLutVec act_vec wt_vec 2 j = _ :=
    lut_values_lane act_vec wt_vec ha hw 1 (by omega) j
  have h2 : lut_values builtinLutVec act_vec wt_vec 4 j = _ :=
    lut_values_lane act_vec wt_vec ha hw 2 (by omega) j
  have h3 : lut_values builtinLutVec act_vec wt_vec 6 j = _ :=
    lut_values_lane act_vec wt_vec ha hw 3 (by omega) j
  simp only [shiftLoop, shifts, List.foldl, _mm256_add_epi8]
  rw [hr, h0, h1, h2, h3, byteOfInt8_add, byteOfInt8_add, byteOfInt8_add, byteOfInt8_add]
  congr 1
  simp [byteProducts, List.range_succ]
  ring


/-! ## The block loop -/

theorem getD_lt_256 (l : List Nat) (hl : ∀ b ∈ l, b < 256) (i : Nat) : l.getD i 0 < 256 := by
  by_cases h : i < l.length
  · rw [List.getD_eq_getElem l 0 h]
    exact hl _ (List.getElem_mem h)
  · rw [List.getD_eq_default l 0 (by omega)]
    omega

theorem load_eq (mem : List Nat) (off : Nat) (h : off + 32 ≤ mem.length) :
    _mm256_load_si256 mem off = some (fun j => mem.getD (off + j.val) 0) := by
  unfold _mm256_load_si256
  rw [if_pos h]

/-- The block loop started at block `b` with `k` blocks left, where `M = 32 (b + k)` is
`N` rounded up to a multiple of 32: it returns, and lane `j` of the accumulator has
gained the products of bytes `32 (b + t) + j`, `t < k`, modulo 2^8. -/
theorem blockLoop_eq (acts wts : List Nat) (N M : Nat) (h64 : M < 18446744073709551616)
    (hNM : N ≤ M) (hMN : M < N + 32) (ha : M ≤ acts.length) (hw : M ≤ wts.length)
    (hab : ∀ x ∈ acts, x < 256) (hwb : ∀ x ∈ wts, x < 256) :
    ∀ (k b fuel : Nat) (result : M256) (S : Nat → Int), M = 32 * (b + k) → k < fuel →
      (∀ j : Fin 32, result j = byteOfInt8 (S j.val)) →
      ∃ r, blockLoop builtinLutVec acts wts N fuel (32 * b) result = some r ∧
        ∀ j : Fin 32, r j = byteOfInt8 (S j.val + ((List.range k).map fun t =>
          byteProducts (acts.getD (32 * (b + t) + j.val) 0)
            (wts.getD (32 * (b + t) + j.val) 0)).sum) := by
  intro k
  induction k with
  | zero =>
    intro b fuel result S hM hf hres
    cases fuel with
    | zero => omega
    | succ f =>
      refine ⟨result, ?_, ?_⟩
      · simp only [blockLoop]
        rw [if_neg (by omega)]
      · intro j
        simp [hres j]
  | succ k ih =>
    intro b fuel result S hM hf hres
    cases fuel with
    | zero => omega
    | succ f =>
      have hlt : 32 * b < N := by omega
      have hnext : (32 * b + VECTOR_SIZE) % 18446744073709551616 = 32 * (b + 1) := by
        simp only [VECTOR_SIZE]; omega
      obtain ⟨r, hr, hlanes⟩ := ih (b + 1) f
        (shiftLoop builtinLutVec (fun j => acts.getD (32 * b + j.val) 0)
          (fun j => wts.getD (32 * b + j.val) 0) result)
        (fun j => S j + byteProducts (acts.getD (32 * b + j) 0) (wts.getD (32 * b + j) 0))
        (by omega) (by omega)
        (fun j => shiftLoop_lane _ _ result (fun _ => getD_lt_256 acts hab _)
          (fun _ => getD_lt_256 wts hwb _) (S j.val) j (hres j))
      refine ⟨r, ?_, ?_⟩
      · simp only [blockLoop]
        rw [if_pos hlt, load_eq acts (32 * b) (by omega), load_eq wts (32 * b) (by omega)]
        simp only [hnext]
        exact hr
      · intro j
        rw [hlanes j, List.sum_range_succ']
        simp only [Nat.add_zero, Nat.succ_eq_add_one]
        have e : ∀ t, b + 1 + t = b + (t + 1) := fun t => by omega
        simp only [e]
        rw [add_assoc]

/-- The block loop is deterministic in its fuel: two runs that return, return the same. -/
theorem blockLoop_fuel (lv : M256) (acts wts : List Nat) (N : Nat) :
    ∀ (f1 f2 i : Nat) (result x y : M256),
      blockLoop lv acts wts N f1 i result = some x →
      blockLoop lv acts wts N f2 i result = some y → x = y := by
  intro f1
  induction f1 with
  | zero => intro f2 i result x y h1; simp [blockLoop] at h1
  | succ f1 ih =>
    intro f2 i result x y h1 h2
    cases f2 with
    | zero => simp [blockLoop] at h2
    | succ f2 =>
      simp only [blockLoop] at h1 h2
      by_cases hlt : i < N
      · rw [if_pos hlt] at h1 h2
        cases ha : _mm256_load_si256 acts i with
        | none => simp [ha] at h1
        | some av =>
          cases hw : _mm256_load_si256 wts i with
          | none => simp [ha, hw] at h1
          | some wv =>
            simp only [ha, hw] at h1 h2
            exact ih f2 _ _ x y h1 h2
      · rw [if_neg hlt] at h1 h2
        exact (Option.some.inj h1).symm.trans (Option.some.inj h2)

/-! ## The horizontal sum -/

theorem foldl_toInt32 (g : Nat → Int) (n : Nat) (hn : n ≤ 32)
    (hg : ∀ i, i < n → -128 ≤ g i ∧ g i ≤ 127) :
    (List.range n).foldl (fun acc i => toInt32 (acc + g i)) 0 = ((List.range n).map g).sum ∧
      -128 * (n : Int) ≤ ((List.range n).map g).sum ∧
      ((List.range n).map g).sum ≤ 127 * (n : Int) := by
  induction n with
  | zero => simp
  | succ n ih =>
    obtain ⟨h1, h2, h3⟩ := ih (by omega) (fun i hi => hg i (by omega))
    have hgn := hg n (by omega)
    rw [List.range_succ, List.foldl_append, List.map_append, List.sum_append, h1]
    simp only [List.foldl_cons, List.foldl_nil, List.map_cons, List.map_nil, List.sum_cons,
      List.sum_nil, add_zero]
    refine ⟨?_, ?_, ?_⟩
    · unfold toInt32
      omega
    · push_cast; omega
    · push_cast; omega

theorem store_getD (r : M256) (i : Nat) (h : i < 32) :
    ((_mm256_store_si256 r).map int8OfByte).getD i 0 = int8OfByte (r ⟨i, h⟩) := by
  have hlen : i < ((_mm256_store_si256 r).map int8OfByte).length := by
    rw [List.length_map, _mm256_store_si256, List.length_ofFn]
    exact h
  rw [List.getD_eq_getElem _ _ hlen, List.getElem_map]
  simp only [_mm256_store_si256, List.getElem_ofFn]

theorem horizontalSum_eq (r : M256) (S : Nat → Int)
    (hr : ∀ j : Fin 32, r j = byteOfInt8 (S j.val)) :
    horizontalSum ((_mm256_store_si256 r).map int8OfByte)
      = ((List.range 32).map fun j => int8OfByte (S j % 256).toNat).sum := by
  have hpt : ∀ i, i < 32 → ((_mm256_store_si256 r).map int8OfByte).getD i 0
      = int8OfByte (S i % 256).toNat := by
    intro i hi
    rw [store_getD r i hi, hr ⟨i, hi⟩]
    rfl
  have hfold := foldl_toInt32 (fun i => ((_mm256_store_si256 r).map int8OfByte).getD i 0) 32
    (by omega) (fun i hi => by
      simp only [hpt i hi]
      exact int8OfByte_range _ (byteOfInt8_lt (S i)))
  unfold horizontalSum
  simp only [VECTOR_SIZE]
  rw [show (256 / 8 : Nat) = 32 by rfl, hfold.1]
  congr 1
  apply List.map_congr_left
  intro i hi
  exact hpt i (List.mem_range.mp hi)

/-! ## The whole kernel -/

/-- The kernel as a function of the block loop alone: the table register and the
printed line do not depend on the call. -/
theorem deepgemmAVX2_unfold (fuel : Nat) (beyond : Fin 16 → Nat) (acts wts : List Nat)
    (N : Nat) :
    deepgemmAVX2 fuel beyond acts wts N
      = (blockLoop builtinLutVec acts wts N fuel 0 _mm256_setzero_si256).map fun r =>
          { cout := lutLine, activations := acts, weights := wts,
            value := horizontalSum ((_mm256_store_si256 r).map int8OfByte) } := by
  unfold deepgemmAVX2
  simp only [lut_vec_eq, printLUT_builtin]
  cases blockLoop builtinLutVec acts wts N fuel 0 _mm256_setzero_si256 <;> rfl

/-- The kernel on any length `N`, with `M` the length rounded up to a multiple of 32: it
returns, having printed the table line, and its value is `wrappedResult` over `M` bytes. -/
theorem deepgemmAVX2_eq (fuel : Nat) (beyond : Fin 16 → Nat) (acts wts : List Nat) (N M : Nat)
    (hM : M % 32 = 0) (hNM : N ≤ M) (hMN : M < N + 32) (h64 : M < 18446744073709551616)
    (ha : M ≤ acts.length) (hw : M ≤ wts.length)
    (hab : ∀ x ∈ acts, x < 256) (hwb : ∀ x ∈ wts, x < 256) (hf : M / 32 < fuel) :
    deepgemmAVX2 fuel beyond acts wts N
      = some { cout := lutLine, activations := acts, weights := wts,
               value := wrappedResult acts wts M } := by
  obtain ⟨r, hr, hlanes⟩ := blockLoop_eq acts wts N M h64 hNM hMN ha hw hab hwb (M / 32) 0 fuel
    _mm256_setzero_si256 (fun _ => 0) (by omega) hf (fun _ => rfl)
  have hsum := horizontalSum_eq r (fun j => laneSum acts wts M j) (fun j => by
    rw [hlanes j]
    simp [laneSum, byteProducts])
  rw [deepgemmAVX2_unfold, hr, Option.map_some', hsum]
  rfl

/-! ## Sums over blocks and lanes -/

theorem sum_range_mul (f : Nat → Int) (n m : Nat) :
    ((List.range (m * n)).map f).sum
      = ((List.range m).map fun b => ((List.range n).map fun s => f (n * b + s)).sum).sum := by
  induction m with
  | zero => simp
  | succ m ih =>
    rw [List.sum_range_succ, ← ih, Nat.succ_mul, List.range_add, List.map_append,
      List.sum_append, List.map_map]
    congr 2
    apply List.map_congr_left
    intro s _
    simp [Nat.mul_comm]

theorem sum_range_swap (g : Nat → Nat → Int) (n m : Nat) :
    ((List.range m).map fun b => ((List.range n).map fun j => g b j).sum).sum
      = ((List.range n).map fun j => ((List.range m).map fun b => g b j).sum).sum := by
  induction m with
  | zero => simp
  | succ m ih =>
    rw [List.sum_range_succ, ih]
    simp only [List.sum_range_succ]
    rw [List.sum_map_add]

/-- The lane sums add up to the scalar reference. -/
theorem sum_laneSum (acts wts : List Nat) (N : Nat) (hN : N % 32 = 0) :
    ((List.range 32).map fun j => laneSum acts wts N j).sum = scalarReference acts wts N := by
  have hdiv : N = N / 32 * 32 := by omega
  unfold scalarReference laneSum
  rw [← sum_range_swap (fun b j => ((List.range 4).map fun s =>
    product (acts.getD (32 * b + j) 0) (wts.getD (32 * b + j) 0) s).sum) 32 (N / 32)]
  conv_rhs => rw [hdiv]
  rw [sum_range_mul _ 32 (N / 32)]
  rfl

/-- The lane sum is the running sum after all `4 (N / 32)` lookups. -/
theorem laneSum_eq_runningSum (acts wts : List Nat) (N j : Nat) :
    laneSum acts wts N j = runningSum acts wts j (4 * (N / 32)) := by
  unfold laneSum runningSum
  rw [Nat.mul_comm 4 (N / 32), sum_range_mul _ 4 (N / 32)]
  congr 1
  apply List.map_congr_left
  intro b _
  congr 1
  apply List.map_congr_left
  intro s hs
  have hs4 : s < 4 := List.mem_range.mp hs
  rw [show (4 * b + s) / 4 = b by omega, show (4 * b + s) % 4 = s by omega]


theorem getD_zero (l : List Nat) (hl : ∀ x ∈ l, x = 0) (i : Nat) : l.getD i 0 = 0 := by
  by_cases h : i < l.length
  · rw [List.getD_eq_getElem l 0 h]
    exact hl _ (List.getElem_mem h)
  · rw [List.getD_eq_default l 0 (by omega)]

theorem product_zero (s : Nat) : product 0 0 s = 0 := by
  simp [product, predefined_weights, predefined_activations]

theorem length_four (l : List Int) (h : l.length = 4) : ∃ a b c d, l = [a, b, c, d] := by
  match l, h with
  | [a, b, c, d], _ => exact ⟨a, b, c, d, rfl⟩

theorem length_sixteen (l : List Int) (h : l.length = 16) :
    ∃ x0 x1 x2 x3 x4 x5 x6 x7 x8 x9 x10 x11 x12 x13 x14 x15,
      l = [x0, x1, x2, x3, x4, x5, x6, x7, x8, x9, x10, x11, x12, x13, x14, x15] := by
  match l, h with
  | [x0, x1, x2, x3, x4, x5, x6, x7, x8, x9, x10, x11, x12, x13, x14, x15], _ =>
    exact ⟨x0, x1, x2, x3, x4, x5, x6, x7, x8, x9, x10, x11, x12, x13, x14, x15, rfl⟩

theorem range_four : List.range 4 = [0, 1, 2, 3] := by decide

/-- The table that `generateLUT` leaves, entry by entry. -/
theorem generateLUT_unfold
    (x0 x1 x2 x3 x4 x5 x6 x7 x8 x9 x10 x11 x12 x13 x14 x15 w0 w1 w2 w3 a0 a1 a2 a3 : Int) :
    generateLUT [x0, x1, x2, x3, x4, x5, x6, x7, x8, x9, x10, x11, x12, x13, x14, x15]
        [w0, w1, w2, w3] [a0, a1, a2, a3]
      = [toInt8 (w0 * a0), toInt8 (w0 * a1), toInt8 (w0 * a2), toInt8 (w0 * a3),
         toInt8 (w1 * a0), toInt8 (w1 * a1), toInt8 (w1 * a2), toInt8 (w1 * a3),
         toInt8 (w2 * a0), toInt8 (w2 * a1), toInt8 (w2 * a2), toInt8 (w2 * a3),
         toInt8 (w3 * a0), toInt8 (w3 * a1), toInt8 (w3 * a2), toInt8 (w3 * a3)] := by
  simp only [generateLUT, range_four, List.foldl]
  rfl

/-! ## Properties of the table builder and of the kernel -/

/-- C1 (reference equivalence). For every `N` that is a multiple of 32 and every pair of
packed byte sequences of length `N`: if in each of the 32 byte lanes every running
partial sum of the looked-up products stays in the signed 8-bit range [-128, 127], then
`deepgemmAVX2` returns the naive scalar reference, the sum over all bytes `i < N` and all
sub-lanes `s` of `predefined_weights[(weights[i] >> 2s) & 3] *
predefined_activations[(activations[i] >> 2s) & 3]`. -/
theorem deepgemmAVX2_reference_equivalence (fuel : Nat) (beyond : Fin 16 → Nat)
    (activations weights : List Nat) (N : Nat)
    (hN : N % 32 = 0) (h64 : N < 18446744073709551616)
    (hla : activations.length = N) (hlw : weights.length = N)
    (hab : ∀ x ∈ activations, x < 256) (hwb : ∀ x ∈ weights, x < 256)
    (hf : N / 32 < fuel)
    (hrange : ∀ j < 32, ∀ k ≤ 4 * (N / 32),
      -128 ≤ runningSum activations weights j k ∧ runningSum activations weights j k ≤ 127) :
    Option.map Outcome.value (deepgemmAVX2 fuel beyond activations weights N)
      = some (scalarReference activations weights N) := by
  rw [deepgemmAVX2_eq fuel beyond activations weights N N hN (le_refl N) (by omega) h64
    (by omega) (by omega) hab hwb hf, Option.map_some']
  congr 1
  rw [← sum_laneSum activations weights N hN]
  show wrappedResult activations weights N = _
  unfold wrappedResult
  congr 1
  apply List.map_congr_left
  intro j hj
  have hr := hrange j (List.mem_range.mp hj) (4 * (N / 32)) (le_refl _)
  rw [← laneSum_eq_runningSum activations weights N j] at hr
  show int8OfByte (byteOfInt8 (laneSum activations weights N j)) = _
  rw [int8OfByte_byteOfInt8, toInt8_of_range _ hr.1 hr.2]

set_option maxRecDepth 1000000 in
theorem deepgemmAVX2_reference_equivalence_witness :
    Option.map Outcome.value (deepgemmAVX2 3 (fun _ => 0) sampleActivations sampleWeights 64)
      = some (scalarReference sampleActivations sampleWeights 64) :=
  deepgemmAVX2_reference_equivalence 3 (fun _ => 0) sampleActivations sampleWeights 64
    (by decide) (by decide) (by decide) (by decide) (by decide) (by decide) (by decide)
    (by decide)

/-- C2 (exact wrapped result). For every `N` that is a multiple of 32 (`N = 0` included)
and every input, `deepgemmAVX2` returns the sum over the 32 byte lanes `j` of the signed
8-bit reading of the lane sum (over all blocks `b < N / 32` and all four sub-lanes, of the
product selected by byte `32 b + j`) reduced modulo 256. The outer sum is a sum of
integers: the 32-bit horizontal sum of the code does not wrap. -/
theorem deepgemmAVX2_wrapped_result (fuel : Nat) (beyond : Fin 16 → Nat)
    (activations weights : List Nat) (N : Nat)
    (hN : N % 32 = 0) (h64 : N < 18446744073709551616)
    (hla : activations.length = N) (hlw : weights.length = N)
    (hab : ∀ x ∈ activations, x < 256) (hwb : ∀ x ∈ weights, x < 256)
    (hf : N / 32 < fuel) :
    Option.map Outcome.value (deepgemmAVX2 fuel beyond activations weights N)
      = some (((List.range 32).map fun j =>
          int8OfByte (laneSum activations weights N j % 256).toNat).sum) := by
  rw [deepgemmAVX2_eq fuel beyond activations weights N N hN (le_refl N) (by omega) h64
    (by omega) (by omega) hab hwb hf, Option.map_some']
  rfl

set_option maxRecDepth 1000000 in
theorem deepgemmAVX2_wrapped_result_witness :
    Option.map Outcome.value
        (deepgemmAVX2 7 (fun _ => 0) (List.replicate 192 255) (List.replicate 192 255) 192)
      = some (((List.range 32).map fun j =>
          int8OfByte (laneSum (List.replicate 192 255) (List.replicate 192 255) 192 j
            % 256).toNat).sum) :=
  deepgemmAVX2_wrapped_result 7 (fun _ => 0) (List.replicate 192 255) (List.replicate 192 255)
    192 (by decide) (by decide) (by decide) (by decide) (by decide) (by decide) (by decide)


/-- C3, as stated, fails: with 32 readable bytes behind both pointers and `length = 16`,
which is not a multiple of 32, the call is not rejected; it returns the number -384,
computed from all 32 bytes. -/
theorem deepgemmAVX2_length_not_validated :
    16 % 32 ≠ 0 ∧
    deepgemmAVX2 2 (fun _ => 0) (List.replicate 32 255) (List.replicate 32 0) 16
      = some { cout := lutLine, activations := List.replicate 32 255,
               weights := List.replicate 32 0, value := -384 } := by
  constructor
  · decide
  · rw [deepgemmAVX2_eq 2 (fun _ => 0) (List.replicate 32 255) (List.replicate 32 0) 16 32
      (by decide) (by decide) (by decide) (by decide) (by decide) (by decide) (by decide)
      (by decide) (by decide)]
    decide

/-- C3 (amended). `deepgemmAVX2` does not validate the length. For every `N` that is not
a multiple of 32, when the bytes up to the next multiple of 32 are readable behind both
pointers, the call returns the same outcome as the call with the length rounded up to
that multiple: the last, partial block is processed as a full 32-byte block, and the
returned number is the wrapped lane sum over the rounded-up length. -/
theorem deepgemmAVX2_rounds_length_up (fuel : Nat) (beyond : Fin 16 → Nat)
    (activations weights : List Nat) (N : Nat)
    (hN : N % 32 ≠ 0) (h64 : 32 * (N / 32 + 1) < 18446744073709551616)
    (hla : 32 * (N / 32 + 1) ≤ activations.length)
    (hlw : 32 * (N / 32 + 1) ≤ weights.length)
    (hab : ∀ x ∈ activations, x < 256) (hwb : ∀ x ∈ weights, x < 256)
    (hf : N / 32 + 1 < fuel) :
    deepgemmAVX2 fuel beyond activations weights N
        = deepgemmAVX2 fuel beyond activations weights (32 * (N / 32 + 1)) ∧
      Option.map Outcome.value (deepgemmAVX2 fuel beyond activations weights N)
        = some (wrappedResult activations weights (32 * (N / 32 + 1))) := by
  have h1 := deepgemmAVX2_eq fuel beyond activations weights N (32 * (N / 32 + 1))
    (by omega) (by omega) (by omega) h64 hla hlw hab hwb (by omega)
  have h2 := deepgemmAVX2_eq fuel beyond activations weights (32 * (N / 32 + 1))
    (32 * (N / 32 + 1)) (by omega) (by omega) (by omega) h64 hla hlw hab hwb (by omega)
  rw [h1, h2]
  exact ⟨rfl, rfl⟩

theorem deepgemmAVX2_rounds_length_up_witness :
    deepgemmAVX2 3 (fun _ => 0) sampleActivations sampleWeights 33
        = deepgemmAVX2 3 (fun _ => 0) sampleActivations sampleWeights (32 * (33 / 32 + 1)) ∧
      Option.map Outcome.value (deepgemmAVX2 3 (fun _ => 0) sampleActivations sampleWeights 33)
        = some (wrappedResult sampleActivations sampleWeights (32 * (33 / 32 + 1))) :=
  deepgemmAVX2_rounds_length_up 3 (fun _ => 0) sampleActivations sampleWeights 33
    (by decide) (by decide) (by decide) (by decide) (by decide) (by decide) (by decide)

/-- C4 (zero input). For every `N` that is a multiple of 32, when every byte of both
sequences is 0x00, `deepgemmAVX2` returns `4 * N * (predefined_weights[0] *
predefined_activations[0])`, and for the built-in levels that number is 0. -/
theorem deepgemmAVX2_zero_input (fuel : Nat) (beyond : Fin 16 → Nat)
    (activations weights : List Nat) (N : Nat)
    (hN : N % 32 = 0) (h64 : N < 18446744073709551616)
    (hla : activations.length = N) (hlw : weights.length = N)
    (hab : ∀ x ∈ activations, x = 0) (hwb : ∀ x ∈ weights, x = 0)
    (hf : N / 32 < fuel) :
    Option.map Outcome.value (deepgemmAVX2 fuel beyond activations weights N)
        = some (4 * (N : Int) *
            (predefined_weights.getD 0 0 * predefined_activations.getD 0 0)) ∧
      4 * (N : Int) * (predefined_weights.getD 0 0 * predefined_activations.getD 0 0) = 0 := by
  have hval : 4 * (N : Int) * (predefined_weights.getD 0 0 * predefined_activations.getD 0 0)
      = 0 := by
    simp [predefined_weights, predefined_activations]
  refine ⟨?_, hval⟩
  rw [deepgemmAVX2_eq fuel beyond activations weights N N hN (le_refl N) (by omega) h64
    (by omega) (by omega) (fun x hx => by rw [hab x hx]; omega)
    (fun x hx => by rw [hwb x hx]; omega) hf, Option.map_some', hval]
  congr 1
  show wrappedResult activations weights N = 0
  have hl : ∀ j, laneSum activations weights N j = 0 := by
    intro j
    simp only [laneSum, getD_zero activations hab, getD_zero weights hwb, product_zero]
    simp
  simp [wrappedResult, hl, int8OfByte]

theorem deepgemmAVX2_zero_input_witness :
    Option.map Outcome.value
        (deepgemmAVX2 3 (fun _ => 0) (List.replicate 64 0) (List.replicate 64 0) 64)
        = some (4 * ((64 : Nat) : Int) *
            (predefined_weights.getD 0 0 * predefined_activations.getD 0 0)) ∧
      4 * ((64 : Nat) : Int) *
        (predefined_weights.getD 0 0 * predefined_activations.getD 0 0) = 0 :=
  deepgemmAVX2_zero_input 3 (fun _ => 0) (List.replicate 64 0) (List.replicate 64 0) 64
    (by decide) (by decide) (by decide) (by decide) (by decide) (by decide) (by decide)

/-- C5 (worked example). With `N = 32`, all weight bytes 0x00 and all activation bytes
0xFF: the table register, the two loads and the block loop all succeed; every one of the
4 x 32 looked-up lanes reads -3 as a signed byte; in every lane the running sums are
-3, -6, -9, -12, all inside [-128, 127]; every lane of the final accumulator reads -12;
and `deepgemmAVX2` returns -384. -/
theorem deepgemmAVX2_worked_example (fuel : Nat) (beyond : Fin 16 → Nat) (hf : 1 < fuel) :
    ∃ lv av wv r,
      lut_vec beyond = some lv ∧
      _mm256_load_si256 (List.replicate 32 255) 0 = some av ∧
      _mm256_load_si256 (List.replicate 32 0) 0 = some wv ∧
      (∀ shift ∈ shifts, ∀ j, int8OfByte (lut_values lv av wv shift j) = -3) ∧
      (∀ j < 32, ∀ k ≤ 4,
        runningSum (List.replicate 32 255) (List.replicate 32 0) j k = -3 * (k : Int)) ∧
      blockLoop lv (List.replicate 32 255) (List.replicate 32 0) 32 fuel 0
        _mm256_setzero_si256 = some r ∧
      (∀ j, int8OfByte (r j) = -12) ∧
      Option.map Outcome.value
        (deepgemmAVX2 fuel beyond (List.replicate 32 255) (List.replicate 32 0) 32)
        = some (-384) := by
  obtain ⟨r, hr, hlanes⟩ := blockLoop_eq (List.replicate 32 255) (List.replicate 32 0) 32 32
    (by decide) (by decide) (by decide) (by decide) (by decide) (by decide) (by decide)
    1 0 fuel _mm256_setzero_si256 (fun _ => 0) (by decide) hf (fun _ => rfl)
  refine ⟨builtinLutVec, _, _, r, lut_vec_eq beyond, load_eq _ 0 (by decide),
    load_eq _ 0 (by decide), by decide, by decide, hr, ?_, ?_⟩
  · intro j
    rw [hlanes j]
    revert j
    decide
  · rw [deepgemmAVX2_eq fuel beyond (List.replicate 32 255) (List.replicate 32 0) 32 32
      (by decide) (by decide) (by decide) (by decide) (by decide) (by decide) (by decide)
      (by decide) hf, Option.map_some']
    decide

theorem deepgemmAVX2_worked_example_witness :
    ∃ lv av wv r,
      lut_vec (fun _ => 0) = some lv ∧
      _mm256_load_si256 (List.replicate 32 255) 0 = some av ∧
      _mm256_load_si256 (List.replicate 32 0) 0 = some wv ∧
      (∀ shift ∈ shifts, ∀ j, int8OfByte (lut_values lv av wv shift j) = -3) ∧
      (∀ j < 32, ∀ k ≤ 4,
        runningSum (List.replicate 32 255) (List.replicate 32 0) j k = -3 * (k : Int)) ∧
      blockLoop lv (List.replicate 32 255) (List.replicate 32 0) 32 2 0
        _mm256_setzero_si256 = some r ∧
      (∀ j, int8OfByte (r j) = -12) ∧
      Option.map Outcome.value
        (deepgemmAVX2 2 (fun _ => 0) (List.replicate 32 255) (List.replicate 32 0) 32)
        = some (-384) :=
  deepgemmAVX2_worked_example 2 (fun _ => 0) (by decide)


/-- C6 (table for the built-in levels). Whatever the 16 entries of `lut` hold before the
call, `generateLUT` with `predefined_weights` and `predefined_activations` leaves
exactly [0,-1,-2,-3, 0,0,0,0, 0,1,2,3, 0,2,4,6] in it, so every entry is written; in
particular this is the table built from the zero-initialised `lut` of `deepgemmAVX2`,
and its entry `4 * w + a` is `predefined_weights[w] * predefined_activations[a]` for all
`w`, `a` in 0..3. -/
theorem generateLUT_builtin_table
    (x0 x1 x2 x3 x4 x5 x6 x7 x8 x9 x10 x11 x12 x13 x14 x15 : Int) :
    generateLUT [x0, x1, x2, x3, x4, x5, x6, x7, x8, x9, x10, x11, x12, x13, x14, x15]
        predefined_weights predefined_activations
        = [0, -1, -2, -3, 0, 0, 0, 0, 0, 1, 2, 3, 0, 2, 4, 6] ∧
      generateLUT (List.replicate LUT_SIZE 0) predefined_weights predefined_activations
        = [0, -1, -2, -3, 0, 0, 0, 0, 0, 1, 2, 3, 0, 2, 4, 6] ∧
      ∀ w a : Fin 4,
        (generateLUT (List.replicate LUT_SIZE 0) predefined_weights
            predefined_activations).getD (4 * w.val + a.val) 0
          = predefined_weights.getD w.val 0 * predefined_activations.getD a.val 0 := by
  refine ⟨?_, by decide, by decide⟩
  show generateLUT _ [-1, 0, 1, 2] [0, 1, 2, 3] = _
  rw [generateLUT_unfold]
  decide

/-- C7, as stated, fails: for the weight level 100 and the activation level 100, both
signed 8-bit values, the table entry 0 is 16, not the integer product 10000. -/
theorem generateLUT_product_wraps :
    (generateLUT (List.replicate 16 0) [100, 0, 0, 0] [100, 0, 0, 0]).getD (4 * 0 + 0) 0 = 16 ∧
      (generateLUT (List.replicate 16 0) [100, 0, 0, 0] [100, 0, 0, 0]).getD (4 * 0 + 0) 0
        ≠ ([100, 0, 0, 0] : List Int).getD 0 0 * ([100, 0, 0, 0] : List Int).getD 0 0 := by
  decide

/-- C7 (amended). For every array of 4 weight levels and every array of 4 activation
levels, `generateLUT` produces a 16-entry table whose entry `4 * w + a` is the product
`weightLevels[w] * activationLevels[a]` converted to `int8_t`, that is, reduced modulo
256 into [-128, 127], for every `w`, `a` in 0..3; the entry is the integer product itself
whenever that product lies in [-128, 127]. -/
theorem generateLUT_entry (lut weightLevels activationLevels : List Int)
    (hl : lut.length = 16) (hw : weightLevels.length = 4) (ha : activationLevels.length = 4)
    (w a : Nat) (hw4 : w < 4) (ha4 : a < 4) :
    (generateLUT lut weightLevels activationLevels).length = 16 ∧
      (generateLUT lut weightLevels activationLevels).getD (4 * w + a) 0
        = toInt8 (weightLevels.getD w 0 * activationLevels.getD a 0) ∧
      (-128 ≤ weightLevels.getD w 0 * activationLevels.getD a 0 →
        weightLevels.getD w 0 * activationLevels.getD a 0 ≤ 127 →
        (generateLUT lut weightLevels activationLevels).getD (4 * w + a) 0
          = weightLevels.getD w 0 * activationLevels.getD a 0) := by
  obtain ⟨x0, x1, x2, x3, x4, x5, x6, x7, x8, x9, x10, x11, x12, x13, x14, x15, rfl⟩ :=
    length_sixteen lut hl
  obtain ⟨w0, w1, w2, w3, rfl⟩ := length_four weightLevels hw
  obtain ⟨a0, a1, a2, a3, rfl⟩ := length_four activationLevels ha
  have hentry : (generateLUT
      [x0, x1, x2, x3, x4, x5, x6, x7, x8, x9, x10, x11, x12, x13, x14, x15]
      [w0, w1, w2, w3] [a0, a1, a2, a3]).getD (4 * w + a) 0
        = toInt8 ([w0, w1, w2, w3].getD w 0 * [a0, a1, a2, a3].getD a 0) := by
    rw [generateLUT_unfold]
    interval_cases w <;> interval_cases a <;> rfl
  refine ⟨by rw [generateLUT_unfold]; rfl, hentry, fun h1 h2 => ?_⟩
  rw [hentry, toInt8_of_range _ h1 h2]

theorem generateLUT_entry_witness :
    (generateLUT (List.replicate 16 7) [-128, 3, 100, 127] [5, -1, 100, -128]).length = 16 ∧
      (generateLUT (List.replicate 16 7) [-128, 3, 100, 127] [5, -1, 100, -128]).getD
          (4 * 2 + 2) 0
        = toInt8 (([-128, 3, 100, 127] : List Int).getD 2 0
            * ([5, -1, 100, -128] : List Int).getD 2 0) ∧
      (-128 ≤ ([-128, 3, 100, 127] : List Int).getD 2 0
            * ([5, -1, 100, -128] : List Int).getD 2 0 →
        ([-128, 3, 100, 127] : List Int).getD 2 0
            * ([5, -1, 100, -128] : List Int).getD 2 0 ≤ 127 →
        (generateLUT (List.replicate 16 7) [-128, 3, 100, 127] [5, -1, 100, -128]).getD
            (4 * 2 + 2) 0
          = ([-128, 3, 100, 127] : List Int).getD 2 0
            * ([5, -1, 100, -128] : List Int).getD 2 0) :=
  generateLUT_entry (List.replicate 16 7) [-128, 3, 100, 127] [5, -1, 100, -128]
    (by decide) (by decide) (by decide) 2 2 (by decide) (by decide)

/-- C8 (determinism). The outcome of `deepgemmAVX2` is a function of the two byte
sequences and `N` only. It does not depend on the 16 bytes that the 32-byte load of
`lut` reads beyond the table, because the permute overwrites the upper half of the
register with the lower half before any lookup; and any two calls on the same sequences
and `N` that return, return the same outcome, whatever lies beyond the table in either
call. -/
theorem deepgemmAVX2_deterministic (activations weights : List Nat) (N : Nat) :
    (∀ (fuel : Nat) (beyond1 beyond2 : Fin 16 → Nat),
      deepgemmAVX2 fuel beyond1 activations weights N
        = deepgemmAVX2 fuel beyond2 activations weights N) ∧
    (∀ (beyond1 beyond2 : Fin 16 → Nat), lut_vec beyond1 = lut_vec beyond2) ∧
    (∀ (fuel1 fuel2 : Nat) (beyond1 beyond2 : Fin 16 → Nat),
      deepgemmAVX2 fuel1 beyond1 activations weights N ≠ none →
      deepgemmAVX2 fuel2 beyond2 activations weights N ≠ none →
      deepgemmAVX2 fuel1 beyond1 activations weights N
        = deepgemmAVX2 fuel2 beyond2 activations weights N) := by
  refine ⟨fun fuel b1 b2 => ?_, fun b1 b2 => ?_, fun f1 f2 b1 b2 h1 h2 => ?_⟩
  · rw [deepgemmAVX2_unfold, deepgemmAVX2_unfold]
  · rw [lut_vec_eq, lut_vec_eq]
  · rw [deepgemmAVX2_unfold] at h1 h2 ⊢
    rw [deepgemmAVX2_unfold]
    cases hr1 : blockLoop builtinLutVec activations weights N f1 0 _mm256_setzero_si256 with
    | none => simp [hr1] at h1
    | some r1 =>
      cases hr2 : blockLoop builtinLutVec activations weights N f2 0 _mm256_setzero_si256 with
      | none => simp [hr2] at h2
      | some r2 =>
        rw [blockLoop_fuel builtinLutVec activations weights N f1 f2 0
          _mm256_setzero_si256 r1 r2 hr1 hr2]

set_option maxRecDepth 1000000 in
theorem deepgemmAVX2_deterministic_witness :
    deepgemmAVX2 3 (fun _ => 0) sampleActivations sampleWeights 64
      = deepgemmAVX2 9 (fun j => 255 - j.val) sampleActivations sampleWeights 64 :=
  (deepgemmAVX2_deterministic sampleActivations sampleWeights 64).2.2 3 9
    (fun _ => 0) (fun j => 255 - j.val) (by decide) (by decide)

/-- C9, as stated, fails: a call on 32 activation bytes 0xFF and 32 weight bytes 0x00
writes 34 operands to `std::cout`, the line of the table. -/
theorem deepgemmAVX2_prints :
    Option.map Outcome.cout
        (deepgemmAVX2 2 (fun _ => 0) (List.replicate 32 255) (List.replicate 32 0) 32)
      = some lutLine ∧ lutLine.length = 34 ∧ lutLine ≠ [] := by
  refine ⟨?_, by decide, by decide⟩
  rw [deepgemmAVX2_eq 2 (fun _ => 0) (List.replicate 32 255) (List.replicate 32 0) 32 32
    (by decide) (by decide) (by decide) (by decide) (by decide) (by decide) (by decide)
    (by decide) (by decide)]
  rfl

/-- C9 (amended). Every call of `deepgemmAVX2` that returns has written exactly one line
to `std::cout`, the same for every input: the text "LUT Table: ", the 16 table entries
0 -1 -2 -3 0 0 0 0 0 1 2 3 0 2 4 6, each followed by a space, and `std::endl`. It has no
other effect besides its return value, and both input buffers are left unchanged. -/
theorem deepgemmAVX2_effects (fuel : Nat) (beyond : Fin 16 → Nat)
    (activations weights : List Nat) (N : Nat) (o : Outcome)
    (h : deepgemmAVX2 fuel beyond activations weights N = some o) :
    o.cout = lutLine ∧ o.activations = activations ∧ o.weights = weights := by
  rw [deepgemmAVX2_unfold] at h
  cases hr : blockLoop builtinLutVec activations weights N fuel 0 _mm256_setzero_si256 with
  | none => simp [hr] at h
  | some r =>
    rw [hr, Option.map_some'] at h
    rw [← Option.some.inj h]
    exact ⟨rfl, rfl, rfl⟩

set_option maxRecDepth 1000000 in
theorem deepgemmAVX2_effects_witness :
    deepgemmAVX2 3 (fun _ => 0) sampleActivations sampleWeights 64
        = some { cout := lutLine, activations := sampleActivations,
                 weights := sampleWeights, value := 163 } ∧
      ({ cout := lutLine, activations := sampleActivations, weights := sampleWeights,
         value := 163 } : Outcome).cout = lutLine ∧
      ({ cout := lutLine, activations := sampleActivations, weights := sampleWeights,
         value := 163 } : Outcome).activations = sampleActivations ∧
      ({ cout := lutLine, activations := sampleActivations, weights := sampleWeights,
         value := 163 } : Outcome).weights = sampleWeights :=
  ⟨by decide,
    deepgemmAVX2_effects 3 (fun _ => 0) sampleActivations sampleWeights 64 _ (by decide)⟩

/-- C10 (lane unpacking). For every 32-byte vector `v` and every shift `s` in {0, 2, 4, 6},
the vector `(v >> s on 16-bit lanes) & 0x03` has in every byte lane `j` exactly
`(v[j] >> s) & 0b11`; this is the value of `act_index` and of `wt_index`; and the lane
depends on byte `j` of `v` only: a vector that agrees with `v` in byte `j` gives the
same lane `j`, whatever its other bytes are. -/
theorem lane_unpacking (v : M256) (hv : ∀ i, v i < 256) (s : Nat)
    (hs : s = 0 ∨ s = 2 ∨ s = 4 ∨ s = 6) (j : Fin 32) :
    _mm256_and_si256 (_mm256_srli_epi16 v s) (_mm256_set1_epi8 0x03) j
        = (v j >>> s) &&& 0b11 ∧
      act_index v s j = (v j >>> s) &&& 0b11 ∧
      wt_index v s j = (v j >>> s) &&& 0b11 ∧
      ∀ u : M256, (∀ i, u i < 256) → u j = v j →
        _mm256_and_si256 (_mm256_srli_epi16 u s) (_mm256_set1_epi8 0x03) j
          = _mm256_and_si256 (_mm256_srli_epi16 v s) (_mm256_set1_epi8 0x03) j := by
  refine ⟨index_lane v hv s hs j, index_lane v hv s hs j, index_lane v hv s hs j,
    fun u hu huv => ?_⟩
  rw [index_lane v hv s hs j, index_lane u hu s hs j, huv]

theorem lane_unpacking_witness :
    _mm256_and_si256 (_mm256_srli_epi16 sampleVec 6) (_mm256_set1_epi8 0x03) 4
        = (sampleVec 4 >>> 6) &&& 0b11 ∧
      act_index sampleVec 6 4 = (sampleVec 4 >>> 6) &&& 0b11 ∧
      wt_index sampleVec 6 4 = (sampleVec 4 >>> 6) &&& 0b11 ∧
      ∀ u : M256, (∀ i, u i < 256) → u 4 = sampleVec 4 →
        _mm256_and_si256 (_mm256_srli_epi16 u 6) (_mm256_set1_epi8 0x03) 4
          = _mm256_and_si256 (_mm256_srli_epi16 sampleVec 6) (_mm256_set1_epi8 0x03) 4 :=
  lane_unpacking sampleVec (by decide) 6 (by decide) 4


/-! ## Further properties: keys, lookup, wraparound -/

theorem generateLUT_getD (lut weightLevels activationLevels : List Int)
    (hl : lut.length = 16) (hw : weightLevels.length = 4) (ha : activationLevels.length = 4)
    (w a : Nat) (hw4 : w < 4) (ha4 : a < 4) :
    (generateLUT lut weightLevels activationLevels).getD (4 * w + a) 0
      = toInt8 (weightLevels.getD w 0 * activationLevels.getD a 0) := by
  obtain ⟨x0, x1, x2, x3, x4, x5, x6, x7, x8, x9, x10, x11, x12, x13, x14, x15, rfl⟩ :=
    length_sixteen lut hl
  obtain ⟨w0, w1, w2, w3, rfl⟩ := length_four weightLevels hw
  obtain ⟨a0, a1, a2, a3, rfl⟩ := length_four activationLevels ha
  rw [generateLUT_unfold]
  interval_cases w <;> interval_cases a <;> rfl

theorem table_int8 : ∀ k < 16, toInt8 (builtinTable.getD k 0) = builtinTable.getD k 0 := by
  decide

/-- C11 (key layout). For every pair of index vectors whose 32 byte lanes all hold values
in 0..3, the combined index `act_index | (wt_index << 2 on 16-bit lanes)` is, in every
byte lane, `4 * weightIndex + activationIndex`: the weight index is its high 2 bits, the
activation index its low 2 bits, it lies in 0..15 and its top bit is clear. It is the
position at which `generateLUT` stores the product of that weight level and that
activation level (`lut[i * 4 + j]` with `i` the weight index), for any levels and for
the built-in ones. -/
theorem key_layout (activationIndex weightIndex : M256)
    (ha : ∀ i, activationIndex i < 4) (hw : ∀ i, weightIndex i < 4) (j : Fin 32) :
    _mm256_or_si256 activationIndex (_mm256_slli_epi16 weightIndex 2) j
        = 4 * weightIndex j + activationIndex j ∧
      _mm256_or_si256 activationIndex (_mm256_slli_epi16 weightIndex 2) j / 4
        = weightIndex j ∧
      _mm256_or_si256 activationIndex (_mm256_slli_epi16 weightIndex 2) j % 4
        = activationIndex j ∧
      _mm256_or_si256 activationIndex (_mm256_slli_epi16 weightIndex 2) j < 16 ∧
      _mm256_or_si256 activationIndex (_mm256_slli_epi16 weightIndex 2) j / 128 % 2 = 0 ∧
      (∀ lut weightLevels activationLevels : List Int, lut.length = 16 →
        weightLevels.length = 4 → activationLevels.length = 4 →
        (generateLUT lut weightLevels activationLevels).getD
            (_mm256_or_si256 activationIndex (_mm256_slli_epi16 weightIndex 2) j) 0
          = toInt8 (weightLevels.getD (weightIndex j) 0
              * activationLevels.getD (activationIndex j) 0)) ∧
      (generateLUT (List.replicate LUT_SIZE 0) predefined_weights
          predefined_activations).getD
          (_mm256_or_si256 activationIndex (_mm256_slli_epi16 weightIndex 2) j) 0
        = predefined_weights.getD (weightIndex j) 0
          * predefined_activations.getD (activationIndex j) 0 := by
  have hkey : _mm256_or_si256 activationIndex (_mm256_slli_epi16 weightIndex 2) j
      = 4 * weightIndex j + activationIndex j := by
    simp only [_mm256_or_si256]
    rw [slli_lane weightIndex hw j]
    exact or_shifted _ (ha j) _ (hw j)
  have h1 := ha j
  have h2 := hw j
  rw [hkey]
  refine ⟨rfl, by omega, by omega, by omega, by omega, ?_, ?_⟩
  · intro lut weightLevels activationLevels hl hwl hal
    exact generateLUT_getD lut weightLevels activationLevels hl hwl hal _ _ h2 h1
  · rw [lut_builtin]
    exact table_entry _ h2 _ h1

theorem key_layout_witness :
    _mm256_or_si256 sampleActivationIndex (_mm256_slli_epi16 sampleWeightIndex 2) 5
        = 4 * sampleWeightIndex 5 + sampleActivationIndex 5 ∧
      _mm256_or_si256 sampleActivationIndex (_mm256_slli_epi16 sampleWeightIndex 2) 5 < 16 ∧
      (generateLUT (List.replicate LUT_SIZE 0) predefined_weights
          predefined_activations).getD
          (_mm256_or_si256 sampleActivationIndex (_mm256_slli_epi16 sampleWeightIndex 2) 5) 0
        = predefined_weights.getD (sampleWeightIndex 5) 0
          * predefined_activations.getD (sampleActivationIndex 5) 0 :=
  ⟨(key_layout sampleActivationIndex sampleWeightIndex (by decide) (by decide) 5).1,
    (key_layout sampleActivationIndex sampleWeightIndex (by decide) (by decide) 5).2.2.2.1,
    (key_layout sampleActivationIndex sampleWeightIndex (by decide) (by decide)
      5).2.2.2.2.2.2⟩

/-- C12 (broadcast lookup). Whatever follows the table in memory, the table register is
set up, bytes 0..15 and bytes 16..31 of `lut_vec` both hold the full 16-entry table, and
for every key vector whose 32 byte lanes all lie in 0..15 the byte shuffle returns
`table[key[j]]` in every lane `j`, in lanes 16..31 as in lanes 0..15. -/
theorem broadcast_lookup (beyond : Fin 16 → Nat) (key : M256) (hkey : ∀ i, key i < 16)
    (j : Fin 32) :
    ∃ lv, lut_vec beyond = some lv ∧
      (∀ k : Fin 16,
        lv ⟨k.val, by omega⟩
            = byteOfInt8 ((generateLUT (List.replicate LUT_SIZE 0) predefined_weights
                predefined_activations).getD k.val 0) ∧
          lv ⟨16 + k.val, by omega⟩
            = byteOfInt8 ((generateLUT (List.replicate LUT_SIZE 0) predefined_weights
                predefined_activations).getD k.val 0)) ∧
      _mm256_shuffle_epi8 lv key j
        = byteOfInt8 ((generateLUT (List.replicate LUT_SIZE 0) predefined_weights
            predefined_activations).getD (key j) 0) ∧
      int8OfByte (_mm256_shuffle_epi8 lv key j)
        = (generateLUT (List.replicate LUT_SIZE 0) predefined_weights
            predefined_activations).getD (key j) 0 := by
  have hk := hkey j
  have hj := j.isLt
  have hsh : _mm256_shuffle_epi8 builtinLutVec key j
      = byteOfInt8 (builtinTable.getD (key j) 0) := by
    simp only [_mm256_shuffle_epi8, builtinLutVec]
    rw [if_neg (by omega)]
    rw [show (16 * (j.val / 16) + key j % 16) % 16 = key j by omega]
  refine ⟨builtinLutVec, lut_vec_eq beyond, ?_, ?_, ?_⟩
  · rw [lut_builtin]
    decide
  · rw [lut_builtin, hsh]
  · rw [lut_builtin, hsh, int8OfByte_byteOfInt8, table_int8 _ hk]

theorem broadcast_lookup_witness :
    ∃ lv, lut_vec (fun i => 17 * i.val) = some lv ∧
      (∀ k : Fin 16,
        lv ⟨k.val, by omega⟩
            = byteOfInt8 ((generateLUT (List.replicate LUT_SIZE 0) predefined_weights
                predefined_activations).getD k.val 0) ∧
          lv ⟨16 + k.val, by omega⟩
            = byteOfInt8 ((generateLUT (List.replicate LUT_SIZE 0) predefined_weights
                predefined_activations).getD k.val 0)) ∧
      _mm256_shuffle_epi8 lv sampleKey 21
        = byteOfInt8 ((generateLUT (List.replicate LUT_SIZE 0) predefined_weights
            predefined_activations).getD (sampleKey 21) 0) ∧
      int8OfByte (_mm256_shuffle_epi8 lv sampleKey 21)
        = (generateLUT (List.replicate LUT_SIZE 0) predefined_weights
            predefined_activations).getD (sampleKey 21) 0 :=
  broadcast_lookup (fun i => 17 * i.val) sampleKey (by decide) 21

set_option maxRecDepth 1000000 in
/-- C13 (wraparound over the boundary). The lane-wise accumulation is modular, not
saturating: the signed reading of a lane of `_mm256_add_epi8` is the sum of the signed
readings reduced modulo 2^8 into [-128, 127]. For `N = 192` with every weight byte and
every activation byte 0xFF, each lane's exact sum is 144, each lane of the accumulator
ends at the byte 144, read as -112 (a saturating add would end at 127), and
`deepgemmAVX2` returns -3584 while the scalar reference is 4608. -/
theorem deepgemmAVX2_wraparound (fuel : Nat) (beyond : Fin 16 → Nat) (hf : 6 < fuel) :
    (∀ (a b : M256) (j : Fin 32), a j < 256 → b j < 256 →
      int8OfByte (_mm256_add_epi8 a b j) = toInt8 (int8OfByte (a j) + int8OfByte (b j))) ∧
    (∀ j < 32, laneSum (List.replicate 192 255) (List.replicate 192 255) 192 j = 144) ∧
    (∃ lv r, lut_vec beyond = some lv ∧
      blockLoop lv (List.replicate 192 255) (List.replicate 192 255) 192 fuel 0
        _mm256_setzero_si256 = some r ∧
      ∀ j, r j = 144 ∧ int8OfByte (r j) = -112) ∧
    Option.map Outcome.value
        (deepgemmAVX2 fuel beyond (List.replicate 192 255) (List.replicate 192 255) 192)
      = some (-3584) ∧
    scalarReference (List.replicate 192 255) (List.replicate 192 255) 192 = 4608 := by
  obtain ⟨r, hr, hlanes⟩ := blockLoop_eq (List.replicate 192 255) (List.replicate 192 255)
    192 192 (by decide) (by decide) (by decide) (by decide) (by decide) (by decide)
    (by decide) 6 0 fuel _mm256_setzero_si256 (fun _ => 0) (by decide) hf (fun _ => rfl)
  refine ⟨?_, by decide, ⟨builtinLutVec, r, lut_vec_eq beyond, hr, ?_⟩, ?_, by decide⟩
  · intro a b j h1 h2
    unfold _mm256_add_epi8 int8OfByte toInt8
    split <;> split <;> split <;> omega
  · intro j
    rw [hlanes j]
    revert j
    decide
  · rw [deepgemmAVX2_eq fuel beyond (List.replicate 192 255) (List.replicate 192 255) 192 192
      (by decide) (by decide) (by decide) (by decide) (by decide) (by decide) (by decide)
      (by decide) hf, Option.map_some']
    decide

theorem deepgemmAVX2_wraparound_witness :
    Option.map Outcome.value
        (deepgemmAVX2 7 (fun _ => 0) (List.replicate 192 255) (List.replicate 192 255) 192)
      = some (-3584) ∧
    scalarReference (List.replicate 192 255) (List.replicate 192 255) 192 = 4608 :=
  ⟨(deepgemmAVX2_wraparound 7 (fun _ => 0) (by decide)).2.2.2.1,
    (deepgemmAVX2_wraparound 7 (fun _ => 0) (by decide)).2.2.2.2⟩


/-! ## Further properties: ranges -/

theorem level_product_range : ∀ w < 4, ∀ a < 4,
    -3 ≤ predefined_weights.getD w 0 * predefined_activations.getD a 0 ∧
      predefined_weights.getD w 0 * predefined_activations.getD a 0 ≤ 6 := by decide

theorem product_range (a w s : Nat) : -3 ≤ product a w s ∧ product a w s ≤ 6 := by
  unfold product
  rw [and_three, and_three]
  exact level_product_range _ (Nat.mod_lt _ (by omega)) _ (Nat.mod_lt _ (by omega))

theorem runningSum_range (acts wts : List Nat) (j k : Nat) :
    -3 * (k : Int) ≤ runningSum acts wts j k ∧ runningSum acts wts j k ≤ 6 * (k : Int) := by
  induction k with
  | zero => simp [runningSum]
  | succ k ih =>
    have hp := product_range (acts.getD (32 * (k / 4) + j) 0) (wts.getD (32 * (k / 4) + j) 0)
      (k % 4)
    unfold runningSum at ih ⊢
    rw [List.sum_range_succ]
    push_cast
    omega

set_option maxRecDepth 1000000 in
/-- On 192 weight bytes and 192 activation bytes 0xFF the kernel does not return the
scalar reference. -/
theorem wrap_at_192 (fuel : Nat) (beyond : Fin 16 → Nat) (hf : 6 < fuel) :
    Option.map Outcome.value
        (deepgemmAVX2 fuel beyond (List.replicate 192 255) (List.replicate 192 255) 192)
      ≠ some (scalarReference (List.replicate 192 255) (List.replicate 192 255) 192) := by
  rw [deepgemmAVX2_eq fuel beyond (List.replicate 192 255) (List.replicate 192 255) 192
    192 (by decide) (by decide) (by decide) (by decide) (by decide) (by decide)
    (by decide) (by decide) hf, Option.map_some']
  decide

/-- C14 (safe length bound). For the built-in levels, for every `N` that is a multiple of
32 with `N <= 160` and every pair of byte sequences of length `N`, with no further
hypothesis: in every lane every running partial sum lies in
[-12 * (N / 32), 24 * (N / 32)], hence in [-128, 127]; the block loop returns an
accumulator whose lanes read, as signed bytes, the exact lane sums; and `deepgemmAVX2`
returns the scalar reference. The bound 160 cannot be raised to 192: on 192 weight bytes
and 192 activation bytes 0xFF the returned value is not the scalar reference. -/
theorem deepgemmAVX2_safe_length (fuel : Nat) (beyond : Fin 16 → Nat)
    (activations weights : List Nat) (N : Nat)
    (hN : N % 32 = 0) (hmax : N ≤ 160)
    (hla : activations.length = N) (hlw : weights.length = N)
    (hab : ∀ x ∈ activations, x < 256) (hwb : ∀ x ∈ weights, x < 256)
    (hf : N / 32 < fuel) :
    (∀ j < 32, ∀ k ≤ 4 * (N / 32),
      -12 * ((N / 32 : Nat) : Int) ≤ runningSum activations weights j k ∧
        runningSum activations weights j k ≤ 24 * ((N / 32 : Nat) : Int) ∧
        -128 ≤ runningSum activations weights j k ∧
        runningSum activations weights j k ≤ 127) ∧
    (∃ lv r, lut_vec beyond = some lv ∧
      blockLoop lv activations weights N fuel 0 _mm256_setzero_si256 = some r ∧
      ∀ j : Fin 32, int8OfByte (r j) = laneSum activations weights N j.val) ∧
    Option.map Outcome.value (deepgemmAVX2 fuel beyond activations weights N)
      = some (scalarReference activations weights N) ∧
    (∀ (fuel2 : Nat) (beyond2 : Fin 16 → Nat), 6 < fuel2 →
      Option.map Outcome.value
          (deepgemmAVX2 fuel2 beyond2 (List.replicate 192 255) (List.replicate 192 255) 192)
        ≠ some (scalarReference (List.replicate 192 255) (List.replicate 192 255) 192)) := by
  have hrs : ∀ j k, k ≤ 4 * (N / 32) →
      -12 * ((N / 32 : Nat) : Int) ≤ runningSum activations weights j k ∧
        runningSum activations weights j k ≤ 24 * ((N / 32 : Nat) : Int) ∧
        -128 ≤ runningSum activations weights j k ∧
        runningSum activations weights j k ≤ 127 := by
    intro j k hk
    have h := runningSum_range activations weights j k
    have hk2 : ((k : Nat) : Int) ≤ 4 * ((N / 32 : Nat) : Int) := by exact_mod_cast hk
    have hb : ((N / 32 : Nat) : Int) ≤ 5 := by
      have : N / 32 ≤ 5 := by omega
      exact_mod_cast this
    omega
  have hlane : ∀ j, -128 ≤ laneSum activations weights N j ∧
      laneSum activations weights N j ≤ 127 := by
    intro j
    rw [laneSum_eq_runningSum]
    have h := hrs j (4 * (N / 32)) (le_refl _)
    exact ⟨h.2.2.1, h.2.2.2⟩
  have h64 : N < 18446744073709551616 := by omega
  obtain ⟨r, hr, hlanes⟩ := blockLoop_eq activations weights N N h64 (le_refl N) (by omega)
    (by omega) (by omega) hab hwb (N / 32) 0 fuel _mm256_setzero_si256 (fun _ => 0)
    (by omega) hf (fun _ => rfl)
  refine ⟨fun j _ k hk => hrs j k hk, ⟨builtinLutVec, r, lut_vec_eq beyond, hr, ?_⟩, ?_, ?_⟩
  · intro j
    rw [hlanes j, int8OfByte_byteOfInt8]
    have e : ((0 : Int) + ((List.range (N / 32)).map fun t =>
        byteProducts (activations.getD (32 * (0 + t) + j.val) 0)
          (weights.getD (32 * (0 + t) + j.val) 0)).sum)
        = laneSum activations weights N j.val := by
      simp [laneSum, byteProducts]
    rw [e, toInt8_of_range _ (hlane j.val).1 (hlane j.val).2]
  · rw [deepgemmAVX2_eq fuel beyond activations weights N N hN (le_refl N) (by omega) h64
      (by omega) (by omega) hab hwb hf, Option.map_some']
    congr 1
    rw [← sum_laneSum activations weights N hN]
    show wrappedResult activations weights N = _
    unfold wrappedResult
    congr 1
    apply List.map_congr_left
    intro j _
    show int8OfByte (byteOfInt8 (laneSum activations weights N j)) = _
    rw [int8OfByte_byteOfInt8, toInt8_of_range _ (hlane j).1 (hlane j).2]
  · exact fun fuel2 beyond2 hf2 => wrap_at_192 fuel2 beyond2 hf2

set_option maxRecDepth 1000000 in
theorem deepgemmAVX2_safe_length_witness :
    Option.map Outcome.value (deepgemmAVX2 3 (fun _ => 0) sampleActivations sampleWeights 64)
      = some (scalarReference sampleActivations sampleWeights 64) :=
  (deepgemmAVX2_safe_length 3 (fun _ => 0) sampleActivations sampleWeights 64
    (by decide) (by decide) (by decide) (by decide) (by decide) (by decide)
    (by decide)).2.2.1

/-- C15 (result range). For every `N` that is a multiple of 32, however large, and every
input, `deepgemmAVX2` returns a value in [-4096, 4064]. The horizontal sum of any
accumulator, computed in `int32_t`, is the exact sum of its 32 signed lanes and lies in
[-4096, 4064], so it never overflows. -/
theorem deepgemmAVX2_result_range (fuel : Nat) (beyond : Fin 16 → Nat)
    (activations weights : List Nat) (N : Nat)
    (hN : N % 32 = 0) (h64 : N < 18446744073709551616)
    (hla : activations.length = N) (hlw : weights.length = N)
    (hab : ∀ x ∈ activations, x < 256) (hwb : ∀ x ∈ weights, x < 256)
    (hf : N / 32 < fuel) :
    (∃ v, Option.map Outcome.value (deepgemmAVX2 fuel beyond activations weights N) = some v ∧
      -4096 ≤ v ∧ v ≤ 4064) ∧
    (∀ result : M256, (∀ i, result i < 256) →
      horizontalSum ((_mm256_store_si256 result).map int8OfByte)
          = ((List.range 32).map fun i =>
              ((_mm256_store_si256 result).map int8OfByte).getD i 0).sum ∧
        -4096 ≤ horizontalSum ((_mm256_store_si256 result).map int8OfByte) ∧
        horizontalSum ((_mm256_store_si256 result).map int8OfByte) ≤ 4064) := by
  constructor
  · refine ⟨wrappedResult activations weights N, ?_, ?_⟩
    · rw [deepgemmAVX2_eq fuel beyond activations weights N N hN (le_refl N) (by omega) h64
        (by omega) (by omega) hab hwb hf, Option.map_some']
    · have h := foldl_toInt32
        (fun j => int8OfByte (laneSum activations weights N j % 256).toNat) 32 (by omega)
        (fun j _ => int8OfByte_range _ (byteOfInt8_lt (laneSum activations weights N j)))
      unfold wrappedResult
      have h2 := h.2
      constructor <;> omega
  · intro result hres
    have h := foldl_toInt32
      (fun i => ((_mm256_store_si256 result).map int8OfByte).getD i 0) 32 (by omega)
      (fun i hi => by
        simp only [store_getD result i hi]
        exact int8OfByte_range _ (hres _))
    have e : horizontalSum ((_mm256_store_si256 result).map int8OfByte)
        = ((List.range 32).map fun i =>
            ((_mm256_store_si256 result).map int8OfByte).getD i 0).sum := h.1
    rw [e]
    have h2 := h.2
    refine ⟨rfl, ?_, ?_⟩ <;> omega

set_option maxRecDepth 1000000 in
theorem deepgemmAVX2_result_range_witness :
    ∃ v, Option.map Outcome.value
        (deepgemmAVX2 7 (fun _ => 0) (List.replicate 192 255) (List.replicate 192 255) 192)
        = some v ∧ -4096 ≤ v ∧ v ≤ 4064 :=
  (deepgemmAVX2_result_range 7 (fun _ => 0) (List.replicate 192 255)
    (List.replicate 192 255) 192 (by decide) (by decide) (by decide) (by decide)
    (by decide) (by decide) (by decide)).1


/-! ## Further properties: order of the blocks -/

theorem list_sum_range_fin (f : Nat → Int) (n : Nat) :
    ((List.range n).map f).sum = ∑ i : Fin n, f i.val := by
  rw [← Finset.sum_range (fun i => f i)]
  induction n with
  | zero => simp
  | succ n ih => rw [List.sum_range_succ, Finset.sum_range_succ, ih]

theorem sum_blockAt (nb : Nat) (p : Equiv.Perm (Fin nb)) (g : Nat → Int) :
    ((List.range nb).map fun b => g (blockAt nb p b)).sum = ((List.range nb).map g).sum := by
  rw [list_sum_range_fin, list_sum_range_fin]
  have e : ∀ i : Fin nb, g (blockAt nb p i.val) = (fun k : Fin nb => g k.val) (p i) := by
    intro i
    simp [blockAt]
  simp only [e]
  exact Equiv.sum_comp p (fun k : Fin nb => g k.val)

theorem permuteBlocks_length (nb : Nat) (p : Equiv.Perm (Fin nb)) (l : List Nat) :
    (permuteBlocks nb p l).length = 32 * nb := by
  simp [permuteBlocks]

theorem permuteBlocks_getD (nb : Nat) (p : Equiv.Perm (Fin nb)) (l : List Nat) (b j : Nat)
    (hb : b < nb) (hj : j < 32) :
    (permuteBlocks nb p l).getD (32 * b + j) 0 = l.getD (32 * blockAt nb p b + j) 0 := by
  have hlt : 32 * b + j < (permuteBlocks nb p l).length := by
    rw [permuteBlocks_length]; omega
  rw [List.getD_eq_getElem _ _ hlt]
  simp only [permuteBlocks, List.getElem_map, List.getElem_range]
  rw [show (32 * b + j) / 32 = b by omega, show (32 * b + j) % 32 = j by omega]

theorem permuteBlocks_bytes (nb : Nat) (p : Equiv.Perm (Fin nb)) (l : List Nat)
    (hl : ∀ x ∈ l, x < 256) : ∀ x ∈ permuteBlocks nb p l, x < 256 := by
  intro x hx
  simp only [permuteBlocks, List.mem_map] at hx
  obtain ⟨i, _, rfl⟩ := hx
  exact getD_lt_256 l hl _

theorem laneSum_permuteBlocks (acts wts : List Nat) (N j : Nat) (hj : j < 32)
    (p : Equiv.Perm (Fin (N / 32))) :
    laneSum (permuteBlocks (N / 32) p acts) (permuteBlocks (N / 32) p wts) N j
      = laneSum acts wts N j := by
  unfold laneSum
  rw [← sum_blockAt (N / 32) p (fun b => ((List.range 4).map fun s =>
    product (acts.getD (32 * b + j) 0) (wts.getD (32 * b + j) 0) s).sum)]
  congr 1
  apply List.map_congr_left
  intro b hb
  have hb2 : b < N / 32 := List.mem_range.mp hb
  rw [permuteBlocks_getD _ p acts b j hb2 hj, permuteBlocks_getD _ p wts b j hb2 hj]

/-- C16 (block-order invariance). For every `N` that is a multiple of 32, every input and
every permutation `p` of the `N / 32` blocks, applying `p` to the 32-byte blocks of both
the weight sequence and the activation sequence leaves the value returned by
`deepgemmAVX2` unchanged; nothing is assumed about the lane sums, so this holds on
inputs whose lane accumulators wrap. -/
theorem deepgemmAVX2_block_order (fuel : Nat) (beyond : Fin 16 → Nat)
    (activations weights : List Nat) (N : Nat)
    (hN : N % 32 = 0) (h64 : N < 18446744073709551616)
    (hla : activations.length = N) (hlw : weights.length = N)
    (hab : ∀ x ∈ activations, x < 256) (hwb : ∀ x ∈ weights, x < 256)
    (hf : N / 32 < fuel) (p : Equiv.Perm (Fin (N / 32))) :
    Option.map Outcome.value
        (deepgemmAVX2 fuel beyond (permuteBlocks (N / 32) p activations)
          (permuteBlocks (N / 32) p weights) N)
      = Option.map Outcome.value (deepgemmAVX2 fuel beyond activations weights N) := by
  have hlen : ∀ l : List Nat, N ≤ (permuteBlocks (N / 32) p l).length := by
    intro l
    rw [permuteBlocks_length]
    omega
  rw [deepgemmAVX2_eq fuel beyond activations weights N N hN (le_refl N) (by omega) h64
      (by omega) (by omega) hab hwb hf,
    deepgemmAVX2_eq fuel beyond (permuteBlocks (N / 32) p activations)
      (permuteBlocks (N / 32) p weights) N N hN (le_refl N) (by omega) h64
      (hlen activations) (hlen weights) (permuteBlocks_bytes _ p activations hab)
      (permuteBlocks_bytes _ p weights hwb) hf,
    Option.map_some', Option.map_some']
  congr 1
  show wrappedResult _ _ N = wrappedResult _ _ N
  unfold wrappedResult
  congr 1
  apply List.map_congr_left
  intro j hj
  rw [laneSum_permuteBlocks activations weights N j (List.mem_range.mp hj) p]

set_option maxRecDepth 1000000 in
theorem deepgemmAVX2_block_order_witness :
    Option.map Outcome.value
        (deepgemmAVX2 8 (fun _ => 0)
          (permuteBlocks (224 / 32) (Equiv.swap ⟨0, by decide⟩ ⟨6, by decide⟩)
            (List.replicate 192 255 ++ List.replicate 32 0))
          (permuteBlocks (224 / 32) (Equiv.swap ⟨0, by decide⟩ ⟨6, by decide⟩)
            (List.replicate 224 255)) 224)
      = Option.map Outcome.value
          (deepgemmAVX2 8 (fun _ => 0) (List.replicate 192 255 ++ List.replicate 32 0)
            (List.replicate 224 255) 224) :=
  deepgemmAVX2_block_order 8 (fun _ => 0) (List.replicate 192 255 ++ List.replicate 32 0)
    (List.replicate 224 255) 224 (by decide) (by decide) (by decide) (by decide)
    (by decide) (by decide) (by decide) (Equiv.swap ⟨0, by decide⟩ ⟨6, by decide⟩)


/-! ## Further properties: iterations of the block loop -/

/-- The recorded loop is the block loop: dropping the record gives `blockLoop`. -/
theorem blockLoopTrace_fst (lv : M256) (acts wts : List Nat) (N : Nat) :
    ∀ (fuel i : Nat) (result : M256) (trace : List Nat),
      (blockLoopTrace lv acts wts N fuel i result trace).map Prod.fst
        = blockLoop lv acts wts N fuel i result := by
  intro fuel
  induction fuel with
  | zero => intro i result trace; rfl
  | succ f ih =>
    intro i result trace
    simp only [blockLoopTrace, blockLoop]
    by_cases hlt : i < N
    · rw [if_pos hlt, if_pos hlt]
      cases ha : _mm256_load_si256 acts i with
      | none => rfl
      | some av =>
        cases hw : _mm256_load_si256 wts i with
        | none => rfl
        | some wv => exact ih _ _ _
    · rw [if_neg hlt, if_neg hlt]
      rfl

/-- The record of the block loop started at block `b` with `k` blocks left. -/
theorem blockLoopTrace_eq (lv : M256) (acts wts : List Nat) (N : Nat)
    (h64 : N < 18446744073709551616) (ha : N ≤ acts.length) (hw : N ≤ wts.length) :
    ∀ (k b fuel : Nat) (result : M256) (trace : List Nat), N = 32 * (b + k) → k < fuel →
      ∃ r, blockLoopTrace lv acts wts N fuel (32 * b) result trace
        = some (r, trace ++ (List.range k).map fun t => 32 * (b + t)) := by
  intro k
  induction k with
  | zero =>
    intro b fuel result trace hN hf
    cases fuel with
    | zero => omega
    | succ f =>
      refine ⟨result, ?_⟩
      simp only [blockLoopTrace]
      rw [if_neg (by omega)]
      simp
  | succ k ih =>
    intro b fuel result trace hN hf
    cases fuel with
    | zero => omega
    | succ f =>
      have hlt : 32 * b < N := by omega
      have hnext : (32 * b + VECTOR_SIZE) % 18446744073709551616 = 32 * (b + 1) := by
        simp only [VECTOR_SIZE]; omega
      obtain ⟨r, hr⟩ := ih (b + 1) f
        (shiftLoop lv (fun j => acts.getD (32 * b + j.val) 0)
          (fun j => wts.getD (32 * b + j.val) 0) result)
        (trace ++ [32 * b]) (by omega) (by omega)
      refine ⟨r, ?_⟩
      simp only [blockLoopTrace]
      rw [if_pos hlt, load_eq acts (32 * b) (by omega), load_eq wts (32 * b) (by omega)]
      simp only [hnext]
      rw [hr, List.range_succ_eq_map, List.map_cons, List.map_map, List.append_assoc]
      have e : ((fun t => 32 * (b + t)) ∘ Nat.succ) = fun t => 32 * (b + 1 + t) := by
        funext t
        simp only [Function.comp, Nat.succ_eq_add_one]
        omega
      rw [e]
      rfl

/-- With no more fuel than blocks left, the block loop does not get to its end. -/
theorem blockLoop_short_fuel (lv : M256) (acts wts : List Nat) (N : Nat)
    (h64 : N < 18446744073709551616) (ha : N ≤ acts.length) (hw : N ≤ wts.length) :
    ∀ (fuel k b : Nat) (result : M256), N = 32 * (b + k) → fuel ≤ k →
      blockLoop lv acts wts N fuel (32 * b) result = none := by
  intro fuel
  induction fuel with
  | zero => intro k b result _ _; rfl
  | succ f ih =>
    intro k b result hN hf
    have hlt : 32 * b < N := by omega
    have hnext : (32 * b + VECTOR_SIZE) % 18446744073709551616 = 32 * (b + 1) := by
      simp only [VECTOR_SIZE]; omega
    simp only [blockLoop]
    rw [if_pos hlt, load_eq acts (32 * b) (by omega), load_eq wts (32 * b) (by omega)]
    simp only [hnext]
    exact ih (k - 1) (b + 1) _ (by omega) (by omega)

/-- C17 (termination and work). For every `N` that is a multiple of 32 and representable
in `size_t`, on buffers of `N` bytes: the table register is set up and the block loop
returns; its body runs at exactly the indices 0, 32, ..., N - 32, in this order, that
is `N / 32` times; the loop does not return with `N / 32` or fewer evaluations of its
condition; at each of these indices the increment `i + 32` stays below 2^64 and both
32-byte loads succeed inside bytes 0..N-1; each iteration makes the four passes
`shift` = 0, 2, 4, 6 in this order, each a lookup and an add on 32 lanes, so `4 * N`
lane lookups and adds in all; and `deepgemmAVX2` returns a result. -/
theorem deepgemmAVX2_termination_work (fuel : Nat) (beyond : Fin 16 → Nat)
    (activations weights : List Nat) (N : Nat)
    (hN : N % 32 = 0) (h64 : N < 18446744073709551616)
    (hla : activations.length = N) (hlw : weights.length = N) (hf : N / 32 < fuel) :
    ∃ lv r,
      lut_vec beyond = some lv ∧
      blockLoopTrace lv activations weights N fuel 0 _mm256_setzero_si256 []
        = some (r, (List.range (N / 32)).map fun b => 32 * b) ∧
      blockLoop lv activations weights N fuel 0 _mm256_setzero_si256 = some r ∧
      ((List.range (N / 32)).map fun b => 32 * b).length = N / 32 ∧
      (∀ fuel2 ≤ N / 32,
        blockLoop lv activations weights N fuel2 0 _mm256_setzero_si256 = none) ∧
      (∀ i ∈ (List.range (N / 32)).map fun b => 32 * b,
        i + VECTOR_SIZE < 18446744073709551616 ∧ i + VECTOR_SIZE ≤ N ∧
          _mm256_load_si256 activations i ≠ none ∧ _mm256_load_si256 weights i ≠ none) ∧
      (∀ lut_vec act_vec wt_vec result : M256,
        shiftLoop lut_vec act_vec wt_vec result
          = _mm256_add_epi8 (_mm256_add_epi8 (_mm256_add_epi8 (_mm256_add_epi8 result
              (lut_values lut_vec act_vec wt_vec 0)) (lut_values lut_vec act_vec wt_vec 2))
              (lut_values lut_vec act_vec wt_vec 4)) (lut_values lut_vec act_vec wt_vec 6)) ∧
      shifts = [0, 2, 4, 6] ∧
      ((List.range (N / 32)).map fun b => 32 * b).length * shifts.length * VECTOR_SIZE
        = 4 * N ∧
      deepgemmAVX2 fuel beyond activations weights N ≠ none := by
  obtain ⟨r, hr⟩ := blockLoopTrace_eq builtinLutVec activations weights N h64 (by omega)
    (by omega) (N / 32) 0 fuel _mm256_setzero_si256 [] (by omega) hf
  have htrace : blockLoopTrace builtinLutVec activations weights N fuel 0
      _mm256_setzero_si256 [] = some (r, (List.range (N / 32)).map fun b => 32 * b) := by
    have h0 : (32 * 0 : Nat) = 0 := rfl
    rw [h0] at hr
    rw [hr]
    simp
  have hloop : blockLoop builtinLutVec activations weights N fuel 0 _mm256_setzero_si256
      = some r := by
    rw [← blockLoopTrace_fst builtinLutVec activations weights N fuel 0
      _mm256_setzero_si256 [], htrace]
    rfl
  refine ⟨builtinLutVec, r, lut_vec_eq beyond, htrace, hloop, by simp, ?_, ?_, ?_, rfl, ?_,
    ?_⟩
  · intro fuel2 hf2
    exact blockLoop_short_fuel builtinLutVec activations weights N h64 (by omega) (by omega)
      fuel2 (N / 32) 0 _mm256_setzero_si256 (by omega) hf2
  · intro i hi
    simp only [List.mem_map, List.mem_range] at hi
    obtain ⟨b, hb, rfl⟩ := hi
    have h1 : 32 * b + 32 ≤ N := by omega
    refine ⟨by simp only [VECTOR_SIZE]; omega, by simp only [VECTOR_SIZE]; omega, ?_, ?_⟩
    · rw [load_eq activations (32 * b) (by omega)]
      exact Option.some_ne_none _
    · rw [load_eq weights (32 * b) (by omega)]
      exact Option.some_ne_none _
  · intro lut_vec act_vec wt_vec result
    rfl
  · simp only [List.length_map, List.length_range, shifts, VECTOR_SIZE, List.length_cons,
      List.length_nil]
    omega
  · rw [deepgemmAVX2_unfold, hloop]
    exact Option.some_ne_none _

set_option maxRecDepth 1000000 in
theorem deepgemmAVX2_termination_work_witness :
    ∃ lv r,
      lut_vec (fun _ => 0) = some lv ∧
      blockLoopTrace lv sampleActivations sampleWeights 64 3 0 _mm256_setzero_si256 []
        = some (r, (List.range (64 / 32)).map fun b => 32 * b) ∧
      blockLoop lv sampleActivations sampleWeights 64 3 0 _mm256_setzero_si256 = some r ∧
      ((List.range (64 / 32)).map fun b => 32 * b).length = 64 / 32 ∧
      (∀ fuel2 ≤ 64 / 32,
        blockLoop lv sampleActivations sampleWeights 64 fuel2 0 _mm256_setzero_si256
          = none) ∧
      (∀ i ∈ (List.range (64 / 32)).map fun b => 32 * b,
        i + VECTOR_SIZE < 18446744073709551616 ∧ i + VECTOR_SIZE ≤ 64 ∧
          _mm256_load_si256 sampleActivations i ≠ none ∧
          _mm256_load_si256 sampleWeights i ≠ none) ∧
      (∀ lut_vec act_vec wt_vec result : M256,
        shiftLoop lut_vec act_vec wt_vec result
          = _mm256_add_epi8 (_mm256_add_epi8 (_mm256_add_epi8 (_mm256_add_epi8 result
              (lut_values lut_vec act_vec wt_vec 0)) (lut_values lut_vec act_vec wt_vec 2))
              (lut_values lut_vec act_vec wt_vec 4)) (lut_values lut_vec act_vec wt_vec 6)) ∧
      shifts = [0, 2, 4, 6] ∧
      ((List.range (64 / 32)).map fun b => 32 * b).length * shifts.length * VECTOR_SIZE
        = 4 * 64 ∧
      deepgemmAVX2 3 (fun _ => 0) sampleActivations sampleWeights 64 ≠ none :=
  deepgemmAVX2_termination_work 3 (fun _ => 0) sampleActivations sampleWeights 64
    (by decide) (by decide) (by decide) (by decide) (by decide)

end DeepGemm
